import Mathlib

/-!
# The command-line tokenizer `ljr::cli::command_parser` (src/cli.hxx)

A shallow embedding of the option registry (the constructor of `command_parser`),
of session seeding (`parse(argc, argv)`) and of the step function (`parse()`),
followed by theorems about them.

Modelling conventions

* a `std::string` is a `List Char`; reading the character at the `end()` offset of a
  string yields the terminating character `Char.ofNat 0` (this is what
  `raw_arg[raw_arg.length()]` is defined to return and what `*it` reads for `it == end()`);
  a read further out has no defined behaviour in the code: the model yields the terminator
  there too, which is a convention and not a value the code is known to read;
* a `std::string::iterator` is the index of the argument it points into together with
  an offset inside that argument; iterator arithmetic does not check bounds;
* a `std::list<option>::iterator` is `some i`, the index of a descriptor in
  `priv_option_list`, or `none` for a default constructed iterator;
* a `std::map` is an association list kept in strictly ascending key order;
* `parse()` returns `Except`: `std::invalid_argument` and a failed `assert` are errors.
-/

namespace ljr
namespace cli

/-! ## The embedding -/

/-- A `std::string`. -/
abbrev Str := List Char

/-- The string terminator, read when an iterator at `end()` is dereferenced. -/
def NUL : Char := Char.ofNat 0

/-- The character at offset `i` of `s`: a character of `s` for `i` below its length, the
terminator at its length; past it (no defined behaviour in the code) the terminator again. -/
def char_at (s : Str) (i : Nat) : Char := s.getD i NUL

/-- The `struct option`: identifier, aliases, description. -/
structure option where
  id : Int
  aliases : List Str
  description : Str
deriving DecidableEq

/-- The token kinds and option styles of the anonymous `enum`, as bits of `priv_tok_type`. -/
def arg_is_command : Nat := 1 <<< 0
def arg_is_option : Nat := 1 <<< 1
def arg_is_option_value : Nat := 1 <<< 2
def arg_is_generic : Nat := 1 <<< 3
def opt_is_flag_style : Nat := 1 <<< 8
def opt_is_command_style : Nat := 1 <<< 9
def opt_is_long_style : Nat := 1 <<< 10

/-- A `std::list<option>::iterator`: `none` is a default constructed one. -/
abbrev opt_iter := Option Nat

/-- A `std::string::iterator` into one of the strings of `priv_arg_list`. -/
structure string_iterator where
  arg : Nat
  pos : Nat
deriving DecidableEq

/-- The iterator `it + n`. -/
def string_iterator.plus (it : string_iterator) (n : Nat) : string_iterator :=
  { arg := it.arg, pos := it.pos + n }

/-- The order of `std::map<char, _>`. -/
def char_lt (a b : Char) : Bool := decide (a.toNat < b.toNat)

/-- The order of `std::map<std::string, _>`: lexicographic comparison. -/
def str_lt : Str → Str → Bool
  | [], [] => false
  | [], _ :: _ => true
  | _ :: _, [] => false
  | a :: as, b :: bs =>
    if char_lt a b then true else if char_lt b a then false else str_lt as bs

/-- The assignment `m[k] = v` of a `std::map` ordered by `lt`: a new key is inserted at its
place in the order, the value of a key already present is overwritten. -/
def map_assign {κ : Type} (lt : κ → κ → Bool) (k : κ) (v : opt_iter) :
    List (κ × opt_iter) → List (κ × opt_iter)
  | [] => [(k, v)]
  | x :: m =>
    if lt k x.1 then (k, v) :: x :: m
    else if lt x.1 k then x :: map_assign lt k v m
    else (x.1, v) :: m

/-- The lookup `m.find(k)`: `none` stands for `m.end()`. -/
def map_find {κ : Type} (lt : κ → κ → Bool) (k : κ) : List (κ × opt_iter) → Option opt_iter
  | [] => none
  | x :: m => if lt k x.1 || lt x.1 k then map_find lt k m else some x.2

/-- The read `m[k]`: the stored value, a key that is absent being inserted first with a
default constructed value. -/
def map_subscript {κ : Type} (lt : κ → κ → Bool) (k : κ) (m : List (κ × opt_iter)) :
    opt_iter × List (κ × opt_iter) :=
  match map_find lt k m with
  | some v => (v, m)
  | none => (none, map_assign lt k none m)

/-- The class `command_parser`: its data members. -/
structure command_parser_t where
  priv_option_list : List option
  priv_command_map : List (Str × opt_iter)
  priv_flag_map : List (Char × opt_iter)
  priv_longopt_map : List (Str × opt_iter)
  priv_arg_list : List Str
  priv_arg_iter : Nat
  priv_arg_hyphcount : Nat
  priv_tok_begin : string_iterator
  priv_tok_end : string_iterator
  priv_tok_type : Nat
  priv_current_opt : opt_iter
  priv_in_opt_group : Bool
deriving DecidableEq

/-- The number of leading hyphens: the loops `while(... *char_iter == '-')` of the
constructor and `while(*priv_tok_begin == '-')` of `parse()`, which stop at the first
character that is not a hyphen (the terminator at the latest). -/
def leading_hyphs : Str → Nat
  | [] => 0
  | c :: cs => if c = '-' then leading_hyphs cs + 1 else 0

/-- The body of the inner loop of the constructor: one alias of the descriptor `opt`. -/
def register_alias (opt : Nat) (p : command_parser_t) (al : Str) : command_parser_t :=
  let nhyphs := leading_hyphs al
  let raw_alias := al.drop nhyphs
  if nhyphs = 0 ∧ raw_alias.length > 1 then
    { p with priv_command_map := map_assign str_lt raw_alias (some opt) p.priv_command_map }
  else if nhyphs < 2 ∧ raw_alias.length = 1 then
    { p with priv_flag_map := map_assign char_lt (char_at raw_alias 0) (some opt) p.priv_flag_map }
  else if raw_alias.length = 0 then
    p
  else
    { p with priv_longopt_map := map_assign str_lt raw_alias (some opt) p.priv_longopt_map }

/-- The outer loop of the constructor over the descriptors, `opt` being the position of
the first descriptor of `os` in `priv_option_list`. -/
def register_options : Nat → List option → command_parser_t → command_parser_t
  | _, [], p => p
  | opt, o :: os, p => register_options (opt + 1) os (o.aliases.foldl (register_alias opt) p)

/-- The constructor `command_parser(cmmd_options)`. -/
def command_parser_new (cmmd_options : List option) : command_parser_t :=
  register_options 0 cmmd_options
    { priv_option_list := cmmd_options
      priv_command_map := []
      priv_flag_map := []
      priv_longopt_map := []
      priv_arg_list := []
      priv_arg_iter := 0
      priv_arg_hyphcount := 0
      priv_tok_begin := { arg := 0, pos := 0 }
      priv_tok_end := { arg := 0, pos := 0 }
      priv_tok_type := arg_is_generic
      priv_current_opt := none
      priv_in_opt_group := false }

/-- The suffix of `first_arg` kept by `parse(argc, argv)`: the scan from the end of the
string stops at the first `'/'` met, `currchar.base()` being the position after it. -/
def base_name (first_arg : Str) : Str :=
  (first_arg.reverse.takeWhile (fun c => c != '/')).reverse

/-- The seeding `parse(argc, argv)` for `argv = first_arg :: rest`, `argc = rest.length + 1`. -/
def parse_args (p : command_parser_t) (first_arg : Str) (rest : List Str) : command_parser_t :=
  let l := base_name first_arg :: rest
  { p with
    priv_arg_list := l
    priv_arg_iter := 0
    priv_tok_begin := { arg := 0, pos := 0 }
    priv_tok_end := { arg := 0, pos := (l.getD 0 []).length }
    priv_tok_type := arg_is_command
    priv_in_opt_group := false }

/-- The string `*priv_arg_iter`. -/
def cur_arg (p : command_parser_t) : Str := p.priv_arg_list.getD p.priv_arg_iter []

/-- The iterator `priv_arg_iter->begin()`. -/
def arg_begin (p : command_parser_t) : string_iterator := { arg := p.priv_arg_iter, pos := 0 }

/-- The iterator `priv_arg_iter->end()`. -/
def arg_end (p : command_parser_t) : string_iterator :=
  { arg := p.priv_arg_iter, pos := (cur_arg p).length }

/-- The character `*it`: the character of the argument at the offset of `it`, the terminator
for `it == end()`; for an iterator past `end()` see `char_at`. -/
def deref (p : command_parser_t) (it : string_iterator) : Char :=
  char_at (p.priv_arg_list.getD it.arg []) it.pos

/-- The string `std::string(b, e)` of two iterators into the same argument: the characters
of the buffer of the argument, which are those of the argument followed by its terminator,
from `b` up to `e`; the buffer ends with the terminator, so nothing is given past it. -/
def range_string (p : command_parser_t) (b e : string_iterator) : Str :=
  ((p.priv_arg_list.getD b.arg [] ++ [NUL]).drop b.pos).take (e.pos - b.pos)

/-- The accessor `option_id()`: the id of the descriptor `priv_current_opt` points to. -/
def option_id (p : command_parser_t) : Option Int :=
  p.priv_current_opt.bind (fun i => (p.priv_option_list.get? i).map option.id)

/-- The accessor `arg_type()`. -/
def arg_type (p : command_parser_t) : Nat := p.priv_tok_type

/-- The accessor `str()`. -/
def str (p : command_parser_t) : Str := range_string p p.priv_tok_begin p.priv_tok_end

/-- The test `done()`. -/
def done (p : command_parser_t) : Bool := p.priv_arg_iter == p.priv_arg_list.length

/-- The loop of `try_command_option`: the first entry whose key equals the argument. -/
def find_command (arg : Str) : List (Str × opt_iter) → Option (Str × opt_iter)
  | [] => none
  | x :: m => if x.1 = arg then some x else find_command arg m

/-- The function `try_command_option()`. -/
def try_command_option (p : command_parser_t) : Bool × command_parser_t :=
  match find_command (cur_arg p) p.priv_command_map with
  | some x =>
    (true, { p with
      priv_tok_end := arg_end p
      priv_current_opt := x.2
      priv_tok_type := arg_is_option ||| opt_is_command_style
      priv_in_opt_group := false })
  | none => (false, p)

/-- The function `is_delim`. -/
def is_delim (x : Char) : Bool := x == '=' || x == ','

/-- The loop of `try_long_option` over the long-style map, in the order of its keys. -/
def find_long (raw_arg : Str) : List (Str × opt_iter) → Option (Str × opt_iter)
  | [] => none
  | x :: m =>
    if x.1.length > raw_arg.length then find_long raw_arg m
    else if raw_arg.take x.1.length = x.1 then
      if is_delim (char_at raw_arg x.1.length) || x.1.length == raw_arg.length then some x
      else find_long raw_arg m
    else find_long raw_arg m

/-- The function `try_long_option()`. -/
def try_long_option (p : command_parser_t) : Bool × command_parser_t :=
  let raw_arg := range_string p p.priv_tok_begin (arg_end p)
  match find_long raw_arg p.priv_longopt_map with
  | some x =>
    (true, { p with
      priv_tok_end := p.priv_tok_begin.plus x.1.length
      priv_tok_type := arg_is_option ||| opt_is_long_style
      priv_in_opt_group := false
      priv_current_opt := x.2 })
  | none => (false, p)

/-- The failures of `parse()`. -/
inductive parse_error where
  | invalid_argument (what : Str)
  | assertion_failed
deriving DecidableEq

/-- The three assignments that make the whole current argument a generic token. -/
def whole_arg_generic (p : command_parser_t) : command_parser_t :=
  { p with
    priv_tok_begin := arg_begin p
    priv_tok_end := arg_end p
    priv_tok_type := arg_is_generic }

/-- The assignments that make the character at `priv_tok_begin` a flag-style option. -/
def first_char_flag (p : command_parser_t) : command_parser_t :=
  let r := map_subscript char_lt (deref p p.priv_tok_begin) p.priv_flag_map
  { p with
    priv_tok_end := p.priv_tok_begin.plus 1
    priv_tok_type := arg_is_option ||| opt_is_flag_style
    priv_current_opt := r.1
    priv_flag_map := r.2 }

/-- The part of `parse()` run at the beginning of a new argument, after the hyphens have
been counted: the `switch(priv_arg_hyphcount)`. -/
def classify_arg (p : command_parser_t) : command_parser_t :=
  match p.priv_arg_hyphcount with
  | 0 =>
    let r := try_command_option p
    if r.1 then r.2 else whole_arg_generic p
  | 1 =>
    let r := try_long_option p
    if r.1 then r.2
    else
      let group := (range_string p p.priv_tok_begin (arg_end p)).all
        (fun c => (map_find char_lt c p.priv_flag_map).isSome)
      let p := { p with priv_in_opt_group := group }
      if group then first_char_flag p
      else if (map_find char_lt (deref p p.priv_tok_begin) p.priv_flag_map).isNone then
        whole_arg_generic p
      else first_char_flag p
  | 2 =>
    let r := try_long_option p
    if r.1 then r.2 else whole_arg_generic p
  | _ => whole_arg_generic p

/-- The assignments of `parse()` that leave the argument whose end has been reached. -/
def next_arg (p : command_parser_t) : command_parser_t :=
  { p with priv_in_opt_group := false, priv_arg_iter := p.priv_arg_iter + 1 }

/-- The assignments of `parse()` at the beginning of a new argument: the token iterators
are put after the leading hyphens, which are counted. -/
def skip_hyphs (p : command_parser_t) : command_parser_t :=
  let n := leading_hyphs (cur_arg p)
  { p with
    priv_arg_hyphcount := n
    priv_tok_begin := (arg_begin p).plus n
    priv_tok_end := (arg_begin p).plus n }

/-- The step function `parse()`. -/
def parse (p : command_parser_t) : Except parse_error (Bool × command_parser_t) :=
  if done p then .ok (false, p)
  else if p.priv_tok_end = arg_end p then
    if done (next_arg p) then .ok (false, next_arg p)
    else .ok (true, classify_arg (skip_hyphs (next_arg p)))
  else if p.priv_in_opt_group then
    let r := map_subscript char_lt (deref p p.priv_tok_end) p.priv_flag_map
    .ok (true, { p with
      priv_tok_begin := p.priv_tok_end
      priv_tok_end := p.priv_tok_end.plus 1
      priv_current_opt := r.1
      priv_flag_map := r.2 })
  else if p.priv_tok_type &&& opt_is_flag_style ≠ 0 then
    let e := if is_delim (deref p p.priv_tok_end) then p.priv_tok_end.plus 1 else p.priv_tok_end
    .ok (true, { p with
      priv_tok_begin := e
      priv_tok_end := arg_end p
      priv_tok_type := arg_is_option_value
      priv_in_opt_group := false })
  else if p.priv_tok_type &&& opt_is_long_style ≠ 0 then
    if is_delim (deref p p.priv_tok_end) then
      .ok (true, { p with
        priv_tok_begin := p.priv_tok_end.plus 1
        priv_tok_end := arg_end p
        priv_tok_type := arg_is_option_value
        priv_in_opt_group := false })
    else .error parse_error.assertion_failed
  else .error (parse_error.invalid_argument (cur_arg p))

/-! ## Notions used in the statements -/

/-- The parser `p` holds the registry that the constructor builds from `opts`. -/
def has_registry (opts : List option) (p : command_parser_t) : Prop :=
  p.priv_option_list = opts ∧
  p.priv_command_map = (command_parser_new opts).priv_command_map ∧
  p.priv_flag_map = (command_parser_new opts).priv_flag_map ∧
  p.priv_longopt_map = (command_parser_new opts).priv_longopt_map

instance (opts : List option) (p : command_parser_t) : Decidable (has_registry opts p) := by
  unfold has_registry; infer_instance

/-- The parser is on an argument, its current token ends where that argument ends, and
`a` is the argument that follows: the next `parse()` moves onto `a`. -/
def before_arg (p : command_parser_t) (a : Str) : Prop :=
  p.priv_arg_iter < p.priv_arg_list.length ∧ p.priv_tok_end = arg_end p ∧
  p.priv_arg_list.get? (p.priv_arg_iter + 1) = some a

instance (p : command_parser_t) (a : Str) : Decidable (before_arg p a) := by
  unfold before_arg; infer_instance

/-- The long-style key `k` matches the remaining input `r`: `k` is a prefix of `r` and what
follows it in `r` is the end of the argument or a delimiter. -/
def long_match (k r : Str) : Prop :=
  k <+: r ∧ (r.get? k.length = none ∨ r.get? k.length = some '=' ∨ r.get? k.length = some ',')

instance (k r : Str) : Decidable (long_match k r) := by
  unfold long_match; infer_instance

/-- A boolean comparison that is a strict total order. -/
structure strict_order {κ : Type} (lt : κ → κ → Bool) : Prop where
  irrefl : ∀ a, lt a a = false
  trans : ∀ a b c, lt a b = true → lt b c = true → lt a c = true
  connex : ∀ a b, lt a b = false → lt b a = false → a = b

/-- The keys of a map, in the order of the map. -/
def map_keys {κ : Type} (m : List (κ × opt_iter)) : List κ := m.map Prod.fst

/-- The keys of a map are strictly ascending. -/
def map_sorted {κ : Type} (lt : κ → κ → Bool) (m : List (κ × opt_iter)) : Prop :=
  m.Pairwise (fun x y => lt x.1 y.1 = true)

/-- The number of leading hyphens of an alias, as the specification words it. -/
def hyphen_count (al : Str) : Nat := (al.takeWhile (fun c => c == '-')).length

/-- The hyphen-stripped remainder of an alias, as the specification words it. -/
def hyphen_stripped (al : Str) : Str := al.dropWhile (fun c => c == '-')

/-- The alias `al` is classified command-style with key `r`. -/
def is_command_alias (al r : Str) : Prop :=
  hyphen_stripped al = r ∧ hyphen_count al = 0 ∧ r.length > 1

/-- The alias `al` is classified flag-style with key `c`. -/
def is_flag_alias (al : Str) (c : Char) : Prop :=
  hyphen_stripped al = [c] ∧ hyphen_count al ≤ 1

/-- The alias `al` is classified long-style with key `r`: its remainder is not empty and
it is neither command-style nor flag-style. -/
def is_long_alias (al r : Str) : Prop :=
  hyphen_stripped al = r ∧ r ≠ [] ∧ ¬ (hyphen_count al = 0 ∧ r.length > 1) ∧
    ¬ (hyphen_count al ≤ 1 ∧ r.length = 1)

/-- The three maps of a parser are in strictly ascending key order. -/
def maps_sorted (p : command_parser_t) : Prop :=
  map_sorted str_lt p.priv_command_map ∧ map_sorted char_lt p.priv_flag_map ∧
    map_sorted str_lt p.priv_longopt_map

/-- The test made by `try_long_option` on one key. -/
def long_test (raw_arg : Str) (k : Str) : Bool :=
  decide (k.length ≤ raw_arg.length) && decide (raw_arg.take k.length = k) &&
    (is_delim (char_at raw_arg k.length) || k.length == raw_arg.length)

/-- The descriptors used by the scenarios: help, define, update, two flags, num/number. -/
def sample_options : List option :=
  [ { id := 104, aliases := [['-', 'h'], ['-', '-', 'h', 'e', 'l', 'p']], description := [] },
    { id := 68, aliases := [['-', 'D'], ['-', '-', 'd', 'e', 'f', 'i', 'n', 'e']],
      description := [] },
    { id := 257, aliases := [['u', 'p', 'd', 'a', 't', 'e']], description := [] },
    { id := 97, aliases := [['-', 'a']], description := [] },
    { id := 98, aliases := [['-', 'b']], description := [] },
    { id := 110, aliases := [['-', '-', 'n', 'u', 'm'], ['-', '-', 'n', 'u', 'm', 'b', 'e', 'r']],
      description := [] } ]

/-- A parser seeded with the program name `p` followed by the arguments `rest`. -/
def sample_session (rest : List Str) : command_parser_t :=
  parse_args (command_parser_new sample_options) ['p'] rest

/-- The parser at the beginning of the argument `--number=5`, after its hyphens. -/
def number_session : command_parser_t :=
  skip_hyphs (next_arg (sample_session [['-', '-', 'n', 'u', 'm', 'b', 'e', 'r', '=', '5']]))

/-- One call of `parse()` that returns `true`: the parser it leaves. -/
def step_true (p : command_parser_t) : Option command_parser_t :=
  match parse p with
  | .ok (true, q) => some q
  | _ => none

/-- The parser after `n` calls of `parse()` that all return `true`. -/
def advance : Nat → command_parser_t → Option command_parser_t
  | 0, p => some p
  | n + 1, p => (advance n p).bind step_true

/-- The parser on the flag at offset `i` of an option group, `w` being its descriptor. -/
def group_state (p : command_parser_t) (i : Nat) (w : opt_iter) : command_parser_t :=
  { p with
    priv_in_opt_group := true
    priv_arg_iter := p.priv_arg_iter + 1
    priv_arg_hyphcount := 1
    priv_tok_begin := { arg := p.priv_arg_iter + 1, pos := i + 1 }
    priv_tok_end := { arg := p.priv_arg_iter + 1, pos := i + 2 }
    priv_tok_type := arg_is_option ||| opt_is_flag_style
    priv_current_opt := w }

/-- The parser left by one call of `parse()`, whatever it returns; `none` when it fails. -/
def call (p : command_parser_t) : Option command_parser_t :=
  match parse p with
  | .ok (_, q) => some q
  | .error _ => none

/-- The parser after `n` calls of `parse()` none of which fails. -/
def calls : Nat → command_parser_t → Option command_parser_t
  | 0, p => some p
  | n + 1, p => (calls n p).bind call

/-- What the caller sees over `n` calls of `parse()`: the value returned by each call and
the token text and kind after it; the list stops at a call that fails. -/
def observe : Nat → command_parser_t → List (Bool × Str × Nat)
  | 0, _ => []
  | n + 1, p =>
    match parse p with
    | .ok (b, q) => (b, str q, arg_type q) :: observe n q
    | .error _ => []

/-- Descriptors whose aliases collide: `x` is a flag of the first two, `xy` a long-style key
of the last two. -/
def clash_options : List option :=
  [ { id := 1, aliases := [['-', 'x'], ['u', 'p']], description := [] },
    { id := 2, aliases := [['x'], ['-', '-', 'x', 'y'], ['u', 'p']], description := [] },
    { id := 3, aliases := [['-', 'x', 'y']], description := [] } ]

/-- The kinds `parse(argc, argv)` and `parse()` give to a token. -/
def kind_ok (t : Nat) : Prop :=
  t = arg_is_command ∨ t = arg_is_generic ∨ t = arg_is_option_value ∨
  t = arg_is_option ||| opt_is_flag_style ∨ t = arg_is_option ||| opt_is_command_style ∨
  t = arg_is_option ||| opt_is_long_style

/-- The parser is in a state in which `parse()` has a rule to apply: it is done, or at the
end of its argument, or in an option group, or after an option of flag style, or after an
option of long style with a delimiter at the end of the token. -/
def step_ready (p : command_parser_t) : Prop :=
  done p = true ∨ p.priv_tok_end = arg_end p ∨ p.priv_in_opt_group = true ∨
  p.priv_tok_type = arg_is_option ||| opt_is_flag_style ∨
  (p.priv_tok_type = arg_is_option ||| opt_is_long_style ∧
    is_delim (deref p p.priv_tok_end) = true)

/-- The parser after the two calls of `parse()` over the argument `-D=foo`. -/
def value_session : command_parser_t :=
  (calls 2 (sample_session [['-', 'D', '=', 'f', 'o', 'o']])).getD (sample_session [])

/-- The parser `p` with the descriptor list `l` in place of its own. -/
def with_options (l : List option) (p : command_parser_t) : command_parser_t :=
  { p with priv_option_list := l }

/-- The descriptors of `sample_options` with other ids. -/
def renumbered_options : List option :=
  sample_options.map (fun o => { o with id := o.id + 1000 })

/-- The parser `n + 1` calls of `parse()` after it has moved onto an argument made of one
hyphen: the token is at the offsets `n + 1` to `n + 2` of that argument. -/
def stuck_state (p : command_parser_t) (n : Nat) : command_parser_t :=
  { p with
    priv_in_opt_group := true
    priv_arg_iter := p.priv_arg_iter + 1
    priv_arg_hyphcount := 1
    priv_tok_begin := { arg := p.priv_arg_iter + 1, pos := n + 1 }
    priv_tok_end := { arg := p.priv_arg_iter + 1, pos := n + 2 }
    priv_tok_type := arg_is_option ||| opt_is_flag_style
    priv_current_opt := (map_subscript char_lt NUL p.priv_flag_map).1
    priv_flag_map := (map_subscript char_lt NUL p.priv_flag_map).2 }

/-! ## Theorems -/

/-! ## Orders of the maps -/

theorem char_lt_order : strict_order char_lt := by
  refine ⟨?_, ?_, ?_⟩
  · intro a; simp [char_lt]
  · intro a b c h1 h2
    simp only [char_lt, decide_eq_true_eq] at *
    omega
  · intro a b h1 h2
    simp only [char_lt, decide_eq_false_iff_not] at *
    have h : a.toNat = b.toNat := by omega
    have ha := Char.ofNat_toNat a
    have hb := Char.ofNat_toNat b
    rw [h] at ha
    exact ha.symm.trans hb

theorem str_lt_irrefl : ∀ a : Str, str_lt a a = false
  | [] => rfl
  | c :: cs => by
    have h := char_lt_order.irrefl c
    simp [str_lt, h, str_lt_irrefl cs]

theorem str_lt_trans : ∀ a b c : Str, str_lt a b = true → str_lt b c = true → str_lt a c = true
  | [], [], _, h, _ => by simp [str_lt] at h
  | [], _ :: _, [], _, h => by simp [str_lt] at h
  | [], _ :: _, _ :: _, _, _ => by simp [str_lt]
  | _ :: _, [], _, h, _ => by simp [str_lt] at h
  | _ :: _, _ :: _, [], _, h => by simp [str_lt] at h
  | x :: xs, y :: ys, z :: zs, h1, h2 => by
    simp only [str_lt] at h1 h2 ⊢
    by_cases hxy : char_lt x y = true
    · by_cases hyz : char_lt y z = true
      · simp [char_lt_order.trans x y z hxy hyz]
      · simp only [hyz] at h2
        by_cases hzy : char_lt z y = true
        · simp [hzy] at h2
        · have e : y = z := char_lt_order.connex y z (by simpa using hyz) (by simpa using hzy)
          subst e
          simp [hxy]
    · simp only [hxy] at h1
      by_cases hyx : char_lt y x = true
      · simp [hyx] at h1
      · have e : x = y := char_lt_order.connex x y (by simpa using hxy) (by simpa using hyx)
        subst e
        by_cases hxz : char_lt x z = true
        · simp [hxz]
        · simp only [hxz] at h2 ⊢
          by_cases hzx : char_lt z x = true
          · simp [hzx] at h2
          · simp only [hzx, hyx] at h1 h2 ⊢
            simp only [Bool.false_eq_true, if_false] at h1 h2 ⊢
            exact str_lt_trans xs ys zs h1 h2

theorem str_lt_connex : ∀ a b : Str, str_lt a b = false → str_lt b a = false → a = b
  | [], [], _, _ => rfl
  | [], _ :: _, h, _ => by simp [str_lt] at h
  | _ :: _, [], _, h => by simp [str_lt] at h
  | x :: xs, y :: ys, h1, h2 => by
    simp only [str_lt] at h1 h2
    by_cases hxy : char_lt x y = true
    · simp [hxy] at h1
    · by_cases hyx : char_lt y x = true
      · simp [hyx] at h2
      · have e : x = y := char_lt_order.connex x y (by simpa using hxy) (by simpa using hyx)
        subst e
        simp only [hxy, Bool.false_eq_true, if_false] at h1 h2
        rw [str_lt_connex xs ys h1 h2]

theorem str_lt_order : strict_order str_lt :=
  ⟨str_lt_irrefl, str_lt_trans, str_lt_connex⟩

/-! ## Maps -/

section maps
variable {κ : Type} {lt : κ → κ → Bool}

theorem map_find_some_mem (ho : strict_order lt) {k : κ} {v : opt_iter} :
    ∀ {m : List (κ × opt_iter)}, map_find lt k m = some v → (k, v) ∈ m
  | [], h => by simp [map_find] at h
  | x :: m, h => by
    simp only [map_find] at h
    by_cases hc : (lt k x.1 || lt x.1 k) = true
    · simp only [hc, if_true] at h
      exact List.mem_cons_of_mem _ (map_find_some_mem ho h)
    · simp only [hc] at h
      simp only [Bool.or_eq_true, not_or, Bool.not_eq_true] at hc
      have e := ho.connex k x.1 hc.1 hc.2
      simp only [Bool.false_eq_true, if_false, Option.some.injEq] at h
      subst e; subst h
      simp

theorem map_find_eq_none_iff (ho : strict_order lt) {k : κ} :
    ∀ {m : List (κ × opt_iter)}, map_find lt k m = none ↔ k ∉ map_keys m
  | [] => by simp [map_find, map_keys]
  | x :: m => by
    have ih := map_find_eq_none_iff ho (k := k) (m := m)
    simp only [map_keys] at ih
    simp only [map_find, map_keys, List.map_cons, List.mem_cons, not_or]
    by_cases hc : (lt k x.1 || lt x.1 k) = true
    · simp only [hc, if_true, ih]
      constructor
      · intro h
        refine ⟨?_, h⟩
        intro e
        subst e
        simp [ho.irrefl] at hc
      · exact fun h => h.2
    · simp only [hc, Bool.false_eq_true, if_false]
      simp only [Bool.or_eq_true, not_or, Bool.not_eq_true] at hc
      have e := ho.connex k x.1 hc.1 hc.2
      simp [e]

theorem map_find_isSome_iff (ho : strict_order lt) {k : κ} {m : List (κ × opt_iter)} :
    (map_find lt k m).isSome = true ↔ k ∈ map_keys m := by
  rw [← not_iff_not, ← map_find_eq_none_iff ho]
  cases map_find lt k m <;> simp

theorem mem_map_find (ho : strict_order lt) {k : κ} {v : opt_iter} :
    ∀ {m : List (κ × opt_iter)}, map_sorted lt m → (k, v) ∈ m → map_find lt k m = some v
  | [], _, h => by simp at h
  | x :: m, hs, h => by
    simp only [map_sorted, List.pairwise_cons] at hs
    simp only [map_find]
    rcases List.mem_cons.1 h with e | h
    · subst e
      simp [ho.irrefl]
    · have hx := hs.1 _ h
      simp only at hx
      simp [hx, mem_map_find ho hs.2 h]

theorem mem_map_assign (ho : strict_order lt) {k : κ} {v : opt_iter} {y : κ × opt_iter} :
    ∀ {m : List (κ × opt_iter)}, y ∈ map_assign lt k v m → y = (k, v) ∨ y ∈ m
  | [], h => by
    simp only [map_assign, List.mem_singleton] at h
    left; rw [h]
  | x :: m, h => by
    simp only [map_assign] at h
    by_cases h1 : lt k x.1 = true
    · simp only [h1, if_true, List.mem_cons] at h
      rcases h with e | e | e
      · left; rw [e]
      · right; simp [e]
      · right; simp [e]
    · simp only [h1, Bool.false_eq_true, if_false] at h
      by_cases h2 : lt x.1 k = true
      · simp only [h2, if_true, List.mem_cons] at h
        rcases h with e | e
        · right; simp [e]
        · rcases mem_map_assign ho e with e | e
          · left; exact e
          · right; simp [e]
      · simp only [h2, Bool.false_eq_true, if_false, List.mem_cons] at h
        have e := ho.connex k x.1 (by simpa using h1) (by simpa using h2)
        rcases h with e' | e'
        · left; rw [e', e]
        · right; simp [e']

theorem map_keys_assign (ho : strict_order lt) {k : κ} {v : opt_iter} {j : κ} :
    ∀ {m : List (κ × opt_iter)}, j ∈ map_keys (map_assign lt k v m) ↔ j = k ∨ j ∈ map_keys m
  | [] => by simp [map_assign, map_keys]
  | x :: m => by
    have ih := map_keys_assign ho (k := k) (v := v) (j := j) (m := m)
    simp only [map_keys] at ih
    simp only [map_assign, map_keys]
    by_cases h1 : lt k x.1 = true
    · simp [h1]
    · by_cases h2 : lt x.1 k = true
      · simp only [h1, h2, Bool.false_eq_true, if_false, if_true, List.map_cons, List.mem_cons, ih]
        tauto
      · have e := ho.connex k x.1 (by simpa using h1) (by simpa using h2)
        simp only [h1, h2, Bool.false_eq_true, if_false, List.map_cons, List.mem_cons]
        rw [← e]
        tauto

theorem map_sorted_assign (ho : strict_order lt) {k : κ} {v : opt_iter} :
    ∀ {m : List (κ × opt_iter)}, map_sorted lt m → map_sorted lt (map_assign lt k v m)
  | [], _ => by simp [map_assign, map_sorted]
  | x :: m, hs => by
    have hs' := hs
    simp only [map_sorted, List.pairwise_cons] at hs
    simp only [map_assign]
    by_cases h1 : lt k x.1 = true
    · simp only [h1, if_true, map_sorted, List.pairwise_cons]
      refine ⟨?_, hs.1, hs.2⟩
      intro y hy
      rcases List.mem_cons.1 hy with e | hy
      · rw [e]; exact h1
      · exact ho.trans _ _ _ h1 (hs.1 y hy)
    · by_cases h2 : lt x.1 k = true
      · simp only [h1, h2, Bool.false_eq_true, if_false, if_true, map_sorted, List.pairwise_cons]
        refine ⟨?_, map_sorted_assign ho hs.2⟩
        intro y hy
        rcases mem_map_assign ho hy with e | hy
        · rw [e]; exact h2
        · exact hs.1 y hy
      · simp only [h1, h2, Bool.false_eq_true, if_false, map_sorted, List.pairwise_cons]
        exact ⟨hs.1, hs.2⟩

theorem map_find_assign_same (ho : strict_order lt) {k : κ} {v : opt_iter} :
    ∀ {m : List (κ × opt_iter)}, map_find lt k (map_assign lt k v m) = some v
  | [] => by simp [map_assign, map_find, ho.irrefl]
  | x :: m => by
    simp only [map_assign]
    by_cases h1 : lt k x.1 = true
    · simp [h1, map_find, ho.irrefl]
    · by_cases h2 : lt x.1 k = true
      · simp [h1, h2, map_find, map_find_assign_same ho]
      · simp [h1, h2, map_find]

theorem map_find_assign_other (ho : strict_order lt) {k j : κ} {v : opt_iter} (hne : j ≠ k) :
    ∀ {m : List (κ × opt_iter)}, map_find lt j (map_assign lt k v m) = map_find lt j m
  | [] => by
    have h : (lt j k || lt k j) = true := by
      by_contra hc
      simp only [Bool.or_eq_true, not_or, Bool.not_eq_true] at hc
      exact hne (ho.connex j k hc.1 hc.2)
    simp [map_assign, map_find, h]
  | x :: m => by
    have h : (lt j k || lt k j) = true := by
      by_contra hc
      simp only [Bool.or_eq_true, not_or, Bool.not_eq_true] at hc
      exact hne (ho.connex j k hc.1 hc.2)
    simp only [map_assign]
    by_cases h1 : lt k x.1 = true
    · simp only [h1, if_true]
      rw [map_find, if_pos h]
    · by_cases h2 : lt x.1 k = true
      · simp only [h1, h2, Bool.false_eq_true, if_false, if_true]
        simp only [map_find, map_find_assign_other ho hne]
      · have e := ho.connex k x.1 (by simpa using h1) (by simpa using h2)
        simp only [h1, h2, Bool.false_eq_true, if_false]
        rw [map_find, map_find]
        rw [← e, if_pos h, if_pos h]

theorem map_subscript_found {k : κ} {v : opt_iter} {m : List (κ × opt_iter)}
    (h : map_find lt k m = some v) : map_subscript lt k m = (v, m) := by
  simp [map_subscript, h]

end maps

/-! ## Registry construction -/

theorem leading_hyphs_eq_count : ∀ al : Str, leading_hyphs al = hyphen_count al
  | [] => rfl
  | c :: cs => by
    have ih := leading_hyphs_eq_count cs
    simp only [hyphen_count] at ih
    by_cases h : c = '-'
    · simp [leading_hyphs, hyphen_count, h, List.takeWhile_cons, ih]
    · simp [leading_hyphs, hyphen_count, h, List.takeWhile_cons]

theorem drop_leading_hyphs_eq_stripped : ∀ al : Str, al.drop (leading_hyphs al) = hyphen_stripped al
  | [] => rfl
  | c :: cs => by
    have ih := drop_leading_hyphs_eq_stripped cs
    simp only [hyphen_stripped] at ih
    by_cases h : c = '-'
    · simp [leading_hyphs, hyphen_stripped, h, List.dropWhile_cons, ih]
    · simp [leading_hyphs, hyphen_stripped, h, List.dropWhile_cons]

theorem hyphen_stripped_head : ∀ al : Str, (hyphen_stripped al).head? ≠ some '-'
  | [] => by simp [hyphen_stripped]
  | c :: cs => by
    have ih := hyphen_stripped_head cs
    simp only [hyphen_stripped] at ih
    by_cases h : c = '-'
    · simpa [hyphen_stripped, h, List.dropWhile_cons] using ih
    · simp [hyphen_stripped, h, List.dropWhile_cons]

theorem leading_hyphs_append_stripped (al : Str) :
    al = List.replicate (leading_hyphs al) '-' ++ hyphen_stripped al := by
  induction al with
  | nil => rfl
  | cons c cs ih =>
    by_cases h : c = '-'
    · have e : hyphen_stripped (c :: cs) = hyphen_stripped cs := by
        simp [hyphen_stripped, h, List.dropWhile_cons]
      rw [e]
      simp only [leading_hyphs, h, if_true, List.replicate_succ, List.cons_append]
      rw [← ih]
    · simp [leading_hyphs, hyphen_stripped, h, List.dropWhile_cons]

/-- The leading hyphens of a string made of `n` hyphens followed by a string that does not
begin with a hyphen. -/
theorem leading_hyphs_replicate (n : Nat) (r : Str) (h : r.head? ≠ some '-') :
    leading_hyphs (List.replicate n '-' ++ r) = n := by
  induction n with
  | zero =>
    cases r with
    | nil => rfl
    | cons c cs =>
      have hc : c ≠ '-' := by simpa using h
      simp [leading_hyphs, hc]
  | succ n ih => simp [List.replicate_succ, leading_hyphs, ih]

theorem register_alias_eq (opt : Nat) (p : command_parser_t) (al : Str) :
    register_alias opt p al =
      if hyphen_count al = 0 ∧ (hyphen_stripped al).length > 1 then
        { p with priv_command_map :=
            map_assign str_lt (hyphen_stripped al) (some opt) p.priv_command_map }
      else if hyphen_count al < 2 ∧ (hyphen_stripped al).length = 1 then
        { p with priv_flag_map :=
            map_assign char_lt (char_at (hyphen_stripped al) 0) (some opt) p.priv_flag_map }
      else if (hyphen_stripped al).length = 0 then p
      else
        { p with priv_longopt_map :=
            map_assign str_lt (hyphen_stripped al) (some opt) p.priv_longopt_map } := by
  simp only [register_alias, drop_leading_hyphs_eq_stripped]
  simp only [leading_hyphs_eq_count]

theorem length_one_eq (r : Str) (h : r.length = 1) : r = [char_at r 0] := by
  match r, h with
  | [c], _ => simp [char_at]

theorem register_alias_command_keys (opt : Nat) (p : command_parser_t) (al r : Str) :
    r ∈ map_keys (register_alias opt p al).priv_command_map ↔
      r ∈ map_keys p.priv_command_map ∨ is_command_alias al r := by
  rw [register_alias_eq]
  unfold is_command_alias
  split_ifs with h1 h2 h3
  · simp only [map_keys_assign str_lt_order]
    constructor
    · rintro (e | e)
      · right; exact ⟨e.symm, h1.1, e ▸ h1.2⟩
      · left; exact e
    · rintro (e | e)
      · right; exact e
      · left; exact e.1.symm
  · constructor
    · exact fun e => Or.inl e
    · rintro (e | e)
      · exact e
      · exact absurd ⟨e.2.1, e.1 ▸ e.2.2⟩ h1
  · constructor
    · exact fun e => Or.inl e
    · rintro (e | e)
      · exact e
      · exact absurd ⟨e.2.1, e.1 ▸ e.2.2⟩ h1
  · constructor
    · exact fun e => Or.inl e
    · rintro (e | e)
      · exact e
      · exact absurd ⟨e.2.1, e.1 ▸ e.2.2⟩ h1

theorem register_alias_flag_keys (opt : Nat) (p : command_parser_t) (al : Str) (c : Char) :
    c ∈ map_keys (register_alias opt p al).priv_flag_map ↔
      c ∈ map_keys p.priv_flag_map ∨ is_flag_alias al c := by
  rw [register_alias_eq]
  unfold is_flag_alias
  split_ifs with h1 h2 h3
  · constructor
    · exact fun e => Or.inl e
    · rintro (e | e)
      · exact e
      · have := h1.2
        rw [e.1] at this
        simp at this
  · simp only [map_keys_assign char_lt_order]
    have hr := length_one_eq _ h2.2
    constructor
    · rintro (e | e)
      · right
        refine ⟨?_, by omega⟩
        rw [e]; exact hr
      · left; exact e
    · rintro (e | e)
      · right; exact e
      · left
        rw [e.1]
        simp [char_at]
  · constructor
    · exact fun e => Or.inl e
    · rintro (e | e)
      · exact e
      · rw [e.1] at h3
        simp at h3
  · constructor
    · exact fun e => Or.inl e
    · rintro (e | e)
      · exact e
      · exfalso
        apply h2
        refine ⟨by omega, ?_⟩
        rw [e.1]; rfl

theorem register_alias_long_keys (opt : Nat) (p : command_parser_t) (al r : Str) :
    r ∈ map_keys (register_alias opt p al).priv_longopt_map ↔
      r ∈ map_keys p.priv_longopt_map ∨ is_long_alias al r := by
  rw [register_alias_eq]
  unfold is_long_alias
  split_ifs with h1 h2 h3
  · constructor
    · exact fun e => Or.inl e
    · rintro (e | e)
      · exact e
      · exact absurd (e.1 ▸ h1) e.2.2.1
  · constructor
    · exact fun e => Or.inl e
    · rintro (e | e)
      · exact e
      · exfalso
        apply e.2.2.2
        rw [← e.1]
        exact ⟨by omega, h2.2⟩
  · constructor
    · exact fun e => Or.inl e
    · rintro (e | e)
      · exact e
      · exfalso
        apply e.2.1
        rw [← e.1]
        exact List.length_eq_zero.1 h3
  · simp only [map_keys_assign str_lt_order]
    constructor
    · rintro (e | e)
      · right
        subst e
        refine ⟨rfl, ?_, h1, ?_⟩
        · intro h
          apply h3
          rw [h]; rfl
        · intro h
          exact h2 ⟨by omega, h.2⟩
      · left; exact e
    · rintro (e | e)
      · right; exact e
      · left; exact e.1.symm

theorem foldl_keys {σ α κ : Type} (K : σ → List κ) (f : σ → α → σ) (P : α → κ → Prop)
    (h : ∀ p a k, k ∈ K (f p a) ↔ k ∈ K p ∨ P a k) :
    ∀ (l : List α) (p : σ) (k : κ), k ∈ K (l.foldl f p) ↔ k ∈ K p ∨ ∃ a ∈ l, P a k
  | [], p, k => by simp
  | a :: l, p, k => by
    rw [List.foldl_cons, foldl_keys K f P h l (f p a) k, h]
    simp only [List.mem_cons, exists_eq_or_imp]
    tauto

theorem register_options_keys {κ : Type} (K : command_parser_t → List κ) (P : Str → κ → Prop)
    (h : ∀ opt p al k, k ∈ K (register_alias opt p al) ↔ k ∈ K p ∨ P al k) :
    ∀ (os : List option) (opt : Nat) (p : command_parser_t) (k : κ),
      k ∈ K (register_options opt os p) ↔ k ∈ K p ∨ ∃ o ∈ os, ∃ al ∈ o.aliases, P al k
  | [], opt, p, k => by simp [register_options]
  | o :: os, opt, p, k => by
    rw [register_options, register_options_keys K P h os (opt + 1) _ k,
      foldl_keys K (register_alias opt) P (h opt) o.aliases p k]
    simp only [List.mem_cons, exists_eq_or_imp]
    rw [or_assoc]

theorem foldl_inv {σ α : Type} (I : σ → Prop) (f : σ → α → σ) (h : ∀ p a, I p → I (f p a)) :
    ∀ (l : List α) (p : σ), I p → I (l.foldl f p)
  | [], _, hp => hp
  | a :: l, p, hp => foldl_inv I f h l (f p a) (h p a hp)

theorem register_options_inv (I : command_parser_t → Prop)
    (h : ∀ opt p al, I p → I (register_alias opt p al)) :
    ∀ (os : List option) (opt : Nat) (p : command_parser_t), I p → I (register_options opt os p)
  | [], _, _, hp => hp
  | o :: os, opt, p, hp =>
    register_options_inv I h os (opt + 1) _ (foldl_inv I (register_alias opt) (h opt) o.aliases p hp)

theorem register_alias_sorted (opt : Nat) (p : command_parser_t) (al : Str) (h : maps_sorted p) :
    maps_sorted (register_alias opt p al) := by
  rw [register_alias_eq]
  obtain ⟨h1, h2, h3⟩ := h
  split_ifs
  · exact ⟨map_sorted_assign str_lt_order h1, h2, h3⟩
  · exact ⟨h1, map_sorted_assign char_lt_order h2, h3⟩
  · exact ⟨h1, h2, h3⟩
  · exact ⟨h1, h2, map_sorted_assign str_lt_order h3⟩

theorem ctor_sorted (opts : List option) : maps_sorted (command_parser_new opts) := by
  apply register_options_inv maps_sorted register_alias_sorted
  simp [maps_sorted, map_sorted]

theorem ctor_command_keys (opts : List option) (r : Str) :
    r ∈ map_keys (command_parser_new opts).priv_command_map ↔
      ∃ o ∈ opts, ∃ al ∈ o.aliases, is_command_alias al r := by
  unfold command_parser_new
  rw [register_options_keys (fun p => map_keys p.priv_command_map) is_command_alias
    register_alias_command_keys]
  simp [map_keys]

theorem ctor_flag_keys (opts : List option) (c : Char) :
    c ∈ map_keys (command_parser_new opts).priv_flag_map ↔
      ∃ o ∈ opts, ∃ al ∈ o.aliases, is_flag_alias al c := by
  unfold command_parser_new
  rw [register_options_keys (fun p => map_keys p.priv_flag_map) is_flag_alias
    register_alias_flag_keys]
  simp [map_keys]

theorem ctor_long_keys (opts : List option) (r : Str) :
    r ∈ map_keys (command_parser_new opts).priv_longopt_map ↔
      ∃ o ∈ opts, ∃ al ∈ o.aliases, is_long_alias al r := by
  unfold command_parser_new
  rw [register_options_keys (fun p => map_keys p.priv_longopt_map) is_long_alias
    register_alias_long_keys]
  simp [map_keys]

/-- A flag-style key of a registry is never a hyphen. -/
theorem ctor_flag_key_ne_hyphen (opts : List option) (c : Char)
    (h : c ∈ map_keys (command_parser_new opts).priv_flag_map) : c ≠ '-' := by
  obtain ⟨o, _, al, _, hs, _⟩ := (ctor_flag_keys opts c).1 h
  have := hyphen_stripped_head al
  rw [hs] at this
  simpa using this

/-- A long-style key of a registry is not empty and does not begin with a hyphen. -/
theorem ctor_long_key_head (opts : List option) (r : Str)
    (h : r ∈ map_keys (command_parser_new opts).priv_longopt_map) :
    r ≠ [] ∧ r.head? ≠ some '-' := by
  obtain ⟨o, _, al, _, hs, hne, _⟩ := (ctor_long_keys opts r).1 h
  refine ⟨hne, ?_⟩
  rw [← hs]
  exact hyphen_stripped_head al

/-- The maps a single alias leaves as they are. -/
theorem register_alias_one_map (opt : Nat) (p : command_parser_t) (al : Str) :
    ((register_alias opt p al).priv_command_map = p.priv_command_map ∧
      (register_alias opt p al).priv_flag_map = p.priv_flag_map) ∨
    ((register_alias opt p al).priv_command_map = p.priv_command_map ∧
      (register_alias opt p al).priv_longopt_map = p.priv_longopt_map) ∨
    ((register_alias opt p al).priv_flag_map = p.priv_flag_map ∧
      (register_alias opt p al).priv_longopt_map = p.priv_longopt_map) := by
  rw [register_alias_eq]
  split_ifs <;> simp

/-! ## The two lookups of the step function -/

theorem find_command_eq (arg : Str) :
    ∀ m : List (Str × opt_iter),
      find_command arg m = (map_find str_lt arg m).map (fun v => (arg, v))
  | [] => rfl
  | x :: m => by
    simp only [find_command, map_find]
    by_cases h : x.1 = arg
    · subst h
      simp [str_lt_irrefl]
    · have hc : (str_lt arg x.1 || str_lt x.1 arg) = true := by
        by_contra hc
        simp only [Bool.or_eq_true, not_or, Bool.not_eq_true] at hc
        exact h (str_lt_connex arg x.1 hc.1 hc.2).symm
      simp [h, hc, find_command_eq arg m]

theorem find_long_cons (raw_arg : Str) (x : Str × opt_iter) (m : List (Str × opt_iter)) :
    find_long raw_arg (x :: m) = if long_test raw_arg x.1 then some x else find_long raw_arg m := by
  simp only [find_long, long_test]
  by_cases h1 : x.1.length > raw_arg.length
  · have : ¬ x.1.length ≤ raw_arg.length := by omega
    simp [h1, this]
  · have h1' : x.1.length ≤ raw_arg.length := by omega
    by_cases h2 : raw_arg.take x.1.length = x.1
    · simp only [h1, h2, h1', if_true, if_false, decide_True, Bool.true_and]
    · simp [h1, h2]

theorem is_delim_iff (c : Char) : is_delim c = true ↔ c = '=' ∨ c = ',' := by
  simp [is_delim]

theorem is_delim_NUL : is_delim NUL = false := by decide

theorem long_test_iff (r k : Str) : long_test r k = true ↔ long_match k r := by
  unfold long_test long_match
  simp only [Bool.and_eq_true, Bool.or_eq_true, decide_eq_true_eq, beq_iff_eq]
  constructor
  · rintro ⟨⟨hl, ht⟩, hd⟩
    refine ⟨?_, ?_⟩
    · rw [← ht]; exact List.take_prefix _ _
    · rcases hd with hd | hd
      · by_cases hlt : k.length < r.length
        · have hg : r.get? k.length = some (char_at r k.length) := by
            simp [char_at, List.getD, List.getElem?_eq_getElem hlt]
          rw [hg]
          rcases (is_delim_iff _).1 hd with e | e
          · right; left; rw [e]
          · right; right; rw [e]
        · left
          exact List.get?_eq_none.2 (by omega)
      · left
        exact List.get?_eq_none.2 (by omega)
  · rintro ⟨⟨t, ht⟩, hd⟩
    subst ht
    refine ⟨⟨by simp, by simp⟩, ?_⟩
    rcases hd with hd | hd | hd
    · right
      have := List.get?_eq_none.1 hd
      simp at this
      simp [this]
    · left
      have : char_at (k ++ t) k.length = '=' := by
        rw [List.get?_eq_getElem?] at hd
        simp [char_at, List.getD, hd]
      rw [this]; decide
    · left
      have : char_at (k ++ t) k.length = ',' := by
        rw [List.get?_eq_getElem?] at hd
        simp [char_at, List.getD, hd]
      rw [this]; decide

theorem find_long_none_iff (r : Str) :
    ∀ m : List (Str × opt_iter), find_long r m = none ↔ ∀ k ∈ map_keys m, ¬ long_match k r
  | [] => by simp [find_long, map_keys]
  | x :: m => by
    have ih := find_long_none_iff r m
    simp only [map_keys] at ih
    rw [find_long_cons]
    simp only [map_keys, List.map_cons, List.mem_cons, forall_eq_or_imp, ← long_test_iff]
    by_cases h : long_test r x.1 = true
    · simp [h]
    · simp only [h, Bool.false_eq_true, if_false, not_false_eq_true, true_and, ih,
        ← long_test_iff]

/-- The entry found by `find_long` is an entry of the map whose key matches, and no entry
before it in the map has a matching key. -/
theorem find_long_some (r : Str) (x : Str × opt_iter) :
    ∀ m : List (Str × opt_iter), find_long r m = some x →
      ∃ pre post, m = pre ++ x :: post ∧ long_match x.1 r ∧ ∀ y ∈ pre, ¬ long_match y.1 r
  | [], h => by simp [find_long] at h
  | y :: m, h => by
    rw [find_long_cons] at h
    by_cases hy : long_test r y.1 = true
    · simp only [hy, if_true, Option.some.injEq] at h
      subst h
      exact ⟨[], m, rfl, (long_test_iff _ _).1 hy, by simp⟩
    · simp only [hy, Bool.false_eq_true, if_false] at h
      obtain ⟨pre, post, e, hm, hp⟩ := find_long_some r x m h
      refine ⟨y :: pre, post, by rw [e]; rfl, hm, ?_⟩
      intro z hz
      rcases List.mem_cons.1 hz with e | hz
      · subst e
        rwa [← long_test_iff]
      · exact hp z hz

/-- In a map in ascending key order, the entry found by `find_long` has the least of the
matching keys. -/
theorem find_long_least (r : Str) (x : Str × opt_iter) (m : List (Str × opt_iter))
    (hs : map_sorted str_lt m) (h : find_long r m = some x) :
    x ∈ m ∧ long_match x.1 r ∧
      ∀ y ∈ m, long_match y.1 r → y = x ∨ str_lt x.1 y.1 = true := by
  obtain ⟨pre, post, e, hm, hp⟩ := find_long_some r x m h
  subst e
  refine ⟨by simp, hm, ?_⟩
  intro y hy hym
  simp only [List.mem_append, List.mem_cons] at hy
  rcases hy with hy | hy | hy
  · exact absurd hym (hp y hy)
  · left; exact hy
  · right
    have := (List.pairwise_append.1 hs).2.1
    exact (List.pairwise_cons.1 this).1 y hy

/-! ## Moving onto the next argument -/

theorem getD_of_get? {l : List Str} {i : Nat} {a : Str} (h : l.get? i = some a) :
    l.getD i [] = a := by
  rw [List.get?_eq_getElem?] at h
  simp [List.getD, h]

theorem lt_length_of_get? {l : List Str} {i : Nat} {a : Str} (h : l.get? i = some a) :
    i < l.length := by
  by_contra hc
  rw [List.get?_eq_none.2 (by omega)] at h
  cases h

theorem parse_before_arg (p : command_parser_t) (a : Str) (h : before_arg p a) :
    parse p = .ok (true, classify_arg (skip_hyphs (next_arg p))) := by
  obtain ⟨h1, h2, h3⟩ := h
  have h4 := lt_length_of_get? h3
  have d1 : done p = false := by
    simp only [done, beq_eq_false_iff_ne]; omega
  have d2 : done (next_arg p) = false := by
    simp only [done, next_arg, beq_eq_false_iff_ne]; omega
  simp [parse, d1, d2, h2]

theorem getElem?_of_before_arg {p : command_parser_t} {a : Str} (h : before_arg p a) :
    p.priv_arg_list[p.priv_arg_iter + 1]? = some a := by
  rw [← List.get?_eq_getElem?]; exact h.2.2

theorem take_drop_all (a : Str) (n : Nat) : (a.drop n).take (a.length - n) = a.drop n := by
  apply List.take_of_length_le
  simp

/-- Inside an argument the characters of its buffer are those of the argument. -/
theorem take_drop_buffer (a t : Str) (n m : Nat) (h : n + m ≤ a.length) :
    ((a ++ t).drop n).take m = (a.drop n).take m := by
  rw [List.drop_append_of_le_length (by omega), List.take_append_of_le_length]
  simp only [List.length_drop]
  omega

theorem drop_to_end_buffer (a t : Str) (n : Nat) (h : n ≤ a.length) :
    ((a ++ t).drop n).take (a.length - n) = a.drop n := by
  rw [take_drop_buffer a t n _ (by omega)]
  exact take_drop_all a n

theorem leading_hyphs_eq_zero (a : Str) (h : a.head? ≠ some '-') : leading_hyphs a = 0 := by
  cases a with
  | nil => rfl
  | cons c cs =>
    have hc : c ≠ '-' := by simpa using h
    simp [leading_hyphs, hc]

/-- C8: moving onto an argument `a` with no leading hyphen yields one token that spans the
whole argument; it is an option token of command style, bound to the descriptor the
command-style map holds for `a`, exactly when `a` is a key of that map, and a generic
token otherwise. -/
theorem bare_word_command_or_generic (p : command_parser_t) (a : Str)
    (hb : before_arg p a) (h0 : a.head? ≠ some '-') :
    ∃ q, parse p = .ok (true, q) ∧ str q = a ∧
      q.priv_tok_begin = arg_begin q ∧ q.priv_tok_end = arg_end q ∧ cur_arg q = a ∧
      (arg_type q = arg_is_option ||| opt_is_command_style ↔ a ∈ map_keys p.priv_command_map) ∧
      (∀ v, map_find str_lt a p.priv_command_map = some v →
        arg_type q = arg_is_option ||| opt_is_command_style ∧ q.priv_current_opt = v) ∧
      (a ∉ map_keys p.priv_command_map → arg_type q = arg_is_generic) := by
  refine ⟨_, parse_before_arg p _ hb, ?_⟩
  have ha := getElem?_of_before_arg hb
  have hn := leading_hyphs_eq_zero a h0
  have hk := map_find_eq_none_iff str_lt_order (k := a) (m := p.priv_command_map)
  cases hf : map_find str_lt a p.priv_command_map with
  | none =>
    have hnk := hk.1 hf
    have hne : arg_is_generic ≠ arg_is_option ||| opt_is_command_style := by decide
    simp [classify_arg, skip_hyphs, next_arg, cur_arg, ha, hn, try_command_option,
      find_command_eq, hf, range_string, arg_begin, arg_end, string_iterator.plus,
      whole_arg_generic, arg_type, str, hnk, hne]
  | some v =>
    have hnk : a ∈ map_keys p.priv_command_map := by
      by_contra hc
      rw [hk.2 hc] at hf
      cases hf
    simp [classify_arg, skip_hyphs, next_arg, cur_arg, ha, hn, try_command_option,
      find_command_eq, hf, range_string, arg_begin, arg_end, string_iterator.plus,
      whole_arg_generic, arg_type, str, hnk]

theorem bare_word_command_or_generic_witness :
    ∃ q, parse (sample_session [['u', 'p', 'd', 'a', 't', 'e']]) = .ok (true, q) ∧
      str q = ['u', 'p', 'd', 'a', 't', 'e'] ∧
      q.priv_tok_begin = arg_begin q ∧ q.priv_tok_end = arg_end q ∧
      cur_arg q = ['u', 'p', 'd', 'a', 't', 'e'] ∧
      (arg_type q = arg_is_option ||| opt_is_command_style ↔
        ['u', 'p', 'd', 'a', 't', 'e'] ∈
          map_keys (sample_session [['u', 'p', 'd', 'a', 't', 'e']]).priv_command_map) ∧
      (∀ v, map_find str_lt ['u', 'p', 'd', 'a', 't', 'e']
          (sample_session [['u', 'p', 'd', 'a', 't', 'e']]).priv_command_map = some v →
        arg_type q = arg_is_option ||| opt_is_command_style ∧ q.priv_current_opt = v) ∧
      (['u', 'p', 'd', 'a', 't', 'e'] ∉
          map_keys (sample_session [['u', 'p', 'd', 'a', 't', 'e']]).priv_command_map →
        arg_type q = arg_is_generic) :=
  bare_word_command_or_generic (sample_session [['u', 'p', 'd', 'a', 't', 'e']])
    ['u', 'p', 'd', 'a', 't', 'e'] (by decide) (by decide)

/-- C9: moving onto an argument made of one hyphen, a character `c` that is neither a
hyphen nor a registered flag, and any rest, when no long-style key matches the text after
the hyphen, yields a generic token whose text is the whole argument, hyphen included;
the token ends where the argument ends, so the argument gives this single token. -/
theorem unknown_short_option_is_generic (p : command_parser_t) (c : Char) (rest : Str)
    (hb : before_arg p ('-' :: c :: rest))
    (hc : c ≠ '-')
    (hflag : c ∉ map_keys p.priv_flag_map)
    (hlong : ∀ k ∈ map_keys p.priv_longopt_map, ¬ long_match k (c :: rest)) :
    ∃ q, parse p = .ok (true, q) ∧ arg_type q = arg_is_generic ∧ str q = '-' :: c :: rest ∧
      cur_arg q = '-' :: c :: rest ∧ q.priv_tok_end = arg_end q := by
  refine ⟨_, parse_before_arg p _ hb, ?_⟩
  have ha := getElem?_of_before_arg hb
  have hn : leading_hyphs ('-' :: c :: rest) = 1 := by simp [leading_hyphs, hc]
  have hl := (find_long_none_iff (c :: rest) p.priv_longopt_map).2 hlong
  have hf := (map_find_eq_none_iff char_lt_order).2 hflag
  simp [classify_arg, skip_hyphs, next_arg, cur_arg, ha, hn, try_long_option, range_string,
    arg_begin, arg_end, string_iterator.plus, hl, deref, char_at, hf, whole_arg_generic,
    arg_type, str]

theorem unknown_short_option_is_generic_witness :
    ∃ q, parse (sample_session [['-', 'z']]) = .ok (true, q) ∧ arg_type q = arg_is_generic ∧
      str q = ['-', 'z'] ∧ cur_arg q = ['-', 'z'] ∧ q.priv_tok_end = arg_end q :=
  unknown_short_option_is_generic (sample_session [['-', 'z']]) 'z' []
    (by decide) (by decide) (by decide) (by decide)

theorem try_command_option_frame (e : command_parser_t) :
    (try_command_option e).2.priv_arg_list = e.priv_arg_list ∧
    (try_command_option e).2.priv_arg_iter = e.priv_arg_iter := by
  unfold try_command_option
  split <;> simp

theorem try_long_option_frame (e : command_parser_t) :
    (try_long_option e).2.priv_arg_list = e.priv_arg_list ∧
    (try_long_option e).2.priv_arg_iter = e.priv_arg_iter := by
  unfold try_long_option
  dsimp only
  split <;> simp

theorem classify_arg_frame (e : command_parser_t) :
    (classify_arg e).priv_arg_list = e.priv_arg_list ∧
    (classify_arg e).priv_arg_iter = e.priv_arg_iter := by
  have h1 := try_command_option_frame e
  have h2 := try_long_option_frame e
  unfold classify_arg
  split <;> (try dsimp only) <;> (try split_ifs) <;>
    simp [whole_arg_generic, first_char_flag, h1, h2]

theorem cur_arg_classify (p : command_parser_t) (a : Str) (hb : before_arg p a) :
    cur_arg (classify_arg (skip_hyphs (next_arg p))) = a := by
  have h := classify_arg_frame (skip_hyphs (next_arg p))
  have ha := getElem?_of_before_arg hb
  simp only [cur_arg, h.1, h.2]
  simp [skip_hyphs, next_arg, ha]

theorem prefix_take_eq {k r : Str} (h : k <+: r) : r.take k.length = k := by
  obtain ⟨t, rfl⟩ := h
  simp

/-- C7, as amended: moving onto an argument that begins with two hyphens. When the text `r`
after them does not begin with a hyphen (exactly two leading hyphens), the long-option
match is made on `r`: a matching key gives an option token of long style with that key as
text and its descriptor recorded, and only when no key matches is the token generic,
spanning the whole argument. When `r` begins with a hyphen (three or more leading hyphens)
the token is generic and spans the whole argument, whatever the long-style map holds. -/
theorem two_hyphens_long_else_generic (p : command_parser_t) (r : Str)
    (hb : before_arg p ('-' :: '-' :: r)) :
    ∃ q, parse p = .ok (true, q) ∧ cur_arg q = '-' :: '-' :: r ∧
      (r.head? ≠ some '-' →
        (∃ k v, (k, v) ∈ p.priv_longopt_map ∧ long_match k r ∧
          arg_type q = arg_is_option ||| opt_is_long_style ∧ str q = k ∧
          q.priv_current_opt = v) ∨
        ((∀ k ∈ map_keys p.priv_longopt_map, ¬ long_match k r) ∧
          arg_type q = arg_is_generic ∧ str q = '-' :: '-' :: r)) ∧
      (r.head? = some '-' → arg_type q = arg_is_generic ∧ str q = '-' :: '-' :: r) := by
  refine ⟨_, parse_before_arg p _ hb, ?_⟩
  have ha := getElem?_of_before_arg hb
  refine ⟨cur_arg_classify p _ hb, ?_, ?_⟩
  · intro hr
    have hn : leading_hyphs ('-' :: '-' :: r) = 2 := by
      simp [leading_hyphs, leading_hyphs_eq_zero r hr]
    cases hl : find_long r p.priv_longopt_map with
    | none =>
      right
      refine ⟨(find_long_none_iff r _).1 hl, ?_⟩
      simp [classify_arg, skip_hyphs, next_arg, cur_arg, ha, hn, try_long_option, range_string,
        arg_begin, arg_end, string_iterator.plus, hl, whole_arg_generic, arg_type, str]
    | some x =>
      left
      obtain ⟨pre, post, e, hm, _⟩ := find_long_some r x _ hl
      refine ⟨x.1, x.2, by rw [e]; simp, hm, ?_⟩
      simp [classify_arg, skip_hyphs, next_arg, cur_arg, ha, hn, try_long_option, range_string,
        arg_begin, arg_end, string_iterator.plus, hl, arg_type, str, prefix_take_eq hm.1,
        prefix_take_eq (List.IsPrefix.trans hm.1 (List.prefix_append r [NUL]))]
  · intro hr
    cases r with
    | nil => simp at hr
    | cons c t =>
      have hc : c = '-' := by simpa using hr
      subst hc
      simp [classify_arg, skip_hyphs, next_arg, cur_arg, ha, leading_hyphs, range_string,
        arg_begin, arg_end, string_iterator.plus, whole_arg_generic, arg_type, str]

theorem two_hyphens_long_else_generic_witness :
    ∃ q, parse (sample_session [['-', '-', 'h', 'e', 'l', 'p']]) = .ok (true, q) ∧
      cur_arg q = ['-', '-', 'h', 'e', 'l', 'p'] ∧
      ((['h', 'e', 'l', 'p'] : Str).head? ≠ some '-' →
        (∃ k v, (k, v) ∈ (sample_session [['-', '-', 'h', 'e', 'l', 'p']]).priv_longopt_map ∧
          long_match k ['h', 'e', 'l', 'p'] ∧
          arg_type q = arg_is_option ||| opt_is_long_style ∧ str q = k ∧
          q.priv_current_opt = v) ∨
        ((∀ k ∈ map_keys (sample_session [['-', '-', 'h', 'e', 'l', 'p']]).priv_longopt_map,
            ¬ long_match k ['h', 'e', 'l', 'p']) ∧
          arg_type q = arg_is_generic ∧ str q = ['-', '-', 'h', 'e', 'l', 'p'])) ∧
      ((['h', 'e', 'l', 'p'] : Str).head? = some '-' →
        arg_type q = arg_is_generic ∧ str q = ['-', '-', 'h', 'e', 'l', 'p']) :=
  two_hyphens_long_else_generic (sample_session [['-', '-', 'h', 'e', 'l', 'p']])
    ['h', 'e', 'l', 'p'] (by decide)

/-- C7, counterexample: `help` is a long-style key that matches the text after the hyphens
of both `--help` and `---help`; the first argument gives an option token of long style, the
second a generic token. -/
theorem three_hyphens_not_matched :
    ['h', 'e', 'l', 'p'] ∈ map_keys (command_parser_new sample_options).priv_longopt_map ∧
    long_match ['h', 'e', 'l', 'p'] ['h', 'e', 'l', 'p'] ∧
    (∃ q, parse (sample_session [['-', '-', 'h', 'e', 'l', 'p']]) = .ok (true, q) ∧
      arg_type q = arg_is_option ||| opt_is_long_style ∧ str q = ['h', 'e', 'l', 'p']) ∧
    (∃ q, parse (sample_session [['-', '-', '-', 'h', 'e', 'l', 'p']]) = .ok (true, q) ∧
      arg_type q = arg_is_generic ∧ str q = ['-', '-', '-', 'h', 'e', 'l', 'p']) :=
  ⟨by decide, by decide, ⟨_, rfl, by decide, by decide⟩, ⟨_, rfl, by decide, by decide⟩⟩

theorem has_registry_sorted {opts : List option} {p : command_parser_t}
    (h : has_registry opts p) : maps_sorted p := by
  obtain ⟨_, h1, h2, h3⟩ := h
  have hs := ctor_sorted opts
  unfold maps_sorted at *
  rw [h1, h2, h3]
  exact hs

/-- C6: the long-option prefix match `try_long_option`, made on the remaining input
`r` (the text from `priv_tok_begin` to the end of the argument). It succeeds exactly when some
long-style key matches `r`, that is, is a prefix of `r` followed in `r` by the end of the
argument or by a delimiter. When it succeeds, a key `k` has been chosen that matches, that is
the least of the matching keys in the lexical order of the map, and that the map sends to
the recorded descriptor; the token begins where it began, ends `length k` characters
further, its text is `k`, its kind is option with long style and the parser is not in an
option group. When it fails the parser is left as it was. -/
theorem try_long_option_first_match (opts : List option) (p : command_parser_t)
    (hreg : has_registry opts p) :
    ((try_long_option p).1 = true ↔
      ∃ k ∈ map_keys p.priv_longopt_map,
        long_match k (range_string p p.priv_tok_begin (arg_end p))) ∧
    ((try_long_option p).1 = true →
      ∃ k v, map_find str_lt k p.priv_longopt_map = some v ∧
        long_match k (range_string p p.priv_tok_begin (arg_end p)) ∧
        (∀ j ∈ map_keys p.priv_longopt_map,
          long_match j (range_string p p.priv_tok_begin (arg_end p)) →
            j = k ∨ str_lt k j = true) ∧
        (try_long_option p).2.priv_tok_begin = p.priv_tok_begin ∧
        (try_long_option p).2.priv_tok_end = p.priv_tok_begin.plus k.length ∧
        str (try_long_option p).2 = k ∧
        arg_type (try_long_option p).2 = arg_is_option ||| opt_is_long_style ∧
        (try_long_option p).2.priv_current_opt = v ∧
        (try_long_option p).2.priv_in_opt_group = false) ∧
    ((try_long_option p).1 = false → (try_long_option p).2 = p) := by
  have hs := (has_registry_sorted hreg).2.2
  have hnone := find_long_none_iff (range_string p p.priv_tok_begin (arg_end p)) p.priv_longopt_map
  cases hl : find_long (range_string p p.priv_tok_begin (arg_end p)) p.priv_longopt_map with
  | none =>
    have h1 : try_long_option p = (false, p) := by simp [try_long_option, hl]
    have h2 := hnone.1 hl
    rw [h1]
    refine ⟨?_, ?_, ?_⟩
    · simp only [Bool.false_eq_true, false_iff, not_exists, not_and]
      exact h2
    · intro h; cases h
    · intro _; rfl
  | some x =>
    have h1 : try_long_option p = (true, { p with
        priv_tok_end := p.priv_tok_begin.plus x.1.length
        priv_tok_type := arg_is_option ||| opt_is_long_style
        priv_in_opt_group := false
        priv_current_opt := x.2 }) := by simp [try_long_option, hl]
    obtain ⟨hx, hm, hleast⟩ := find_long_least _ x _ hs hl
    rw [h1]
    refine ⟨?_, ?_, ?_⟩
    · simp only [true_iff]
      exact ⟨x.1, List.mem_map_of_mem _ hx, hm⟩
    · intro _
      refine ⟨x.1, x.2, mem_map_find str_lt_order hs hx, hm, ?_, rfl, rfl, ?_, rfl, rfl, rfl⟩
      · intro j hj hjm
        obtain ⟨y, hy, e⟩ := List.mem_map.1 hj
        subst e
        rcases hleast y hy hjm with e | e
        · left; rw [e]
        · right; exact e
      · have hp := prefix_take_eq (List.IsPrefix.trans hm.1 (List.take_prefix _ _))
        simpa [str, range_string, string_iterator.plus] using hp
    · intro h; cases h

theorem try_long_option_first_match_witness :
    ((try_long_option number_session).1 = true ↔
      ∃ k ∈ map_keys number_session.priv_longopt_map,
        long_match k (range_string number_session number_session.priv_tok_begin
          (arg_end number_session))) ∧
    ((try_long_option number_session).1 = true →
      ∃ k v, map_find str_lt k number_session.priv_longopt_map = some v ∧
        long_match k (range_string number_session number_session.priv_tok_begin
          (arg_end number_session)) ∧
        (∀ j ∈ map_keys number_session.priv_longopt_map,
          long_match j (range_string number_session number_session.priv_tok_begin
            (arg_end number_session)) →
            j = k ∨ str_lt k j = true) ∧
        (try_long_option number_session).2.priv_tok_begin = number_session.priv_tok_begin ∧
        (try_long_option number_session).2.priv_tok_end =
          number_session.priv_tok_begin.plus k.length ∧
        str (try_long_option number_session).2 = k ∧
        arg_type (try_long_option number_session).2 = arg_is_option ||| opt_is_long_style ∧
        (try_long_option number_session).2.priv_current_opt = v ∧
        (try_long_option number_session).2.priv_in_opt_group = false) ∧
    ((try_long_option number_session).1 = false →
      (try_long_option number_session).2 = number_session) :=
  try_long_option_first_match sample_options number_session (by decide)

/-! ## Steps inside an argument -/

theorem parse_long_value (q : command_parser_t) (hnd : q.priv_arg_iter < q.priv_arg_list.length)
    (hmid : q.priv_tok_end ≠ arg_end q) (hg : q.priv_in_opt_group = false)
    (ht : q.priv_tok_type = arg_is_option ||| opt_is_long_style)
    (hd : is_delim (deref q q.priv_tok_end) = true) :
    parse q = .ok (true, { q with
      priv_tok_begin := q.priv_tok_end.plus 1
      priv_tok_end := arg_end q
      priv_tok_type := arg_is_option_value
      priv_in_opt_group := false }) := by
  have d1 : done q = false := by
    simp only [done, beq_eq_false_iff_ne]; omega
  have t1 : (arg_is_option ||| opt_is_long_style) &&& opt_is_flag_style = 0 := by decide
  have t2 : (arg_is_option ||| opt_is_long_style) &&& opt_is_long_style ≠ 0 := by decide
  simp [parse, d1, hmid, hg, ht, t1, t2, hd]

theorem parse_flag_value (q : command_parser_t) (hnd : q.priv_arg_iter < q.priv_arg_list.length)
    (hmid : q.priv_tok_end ≠ arg_end q) (hg : q.priv_in_opt_group = false)
    (ht : q.priv_tok_type = arg_is_option ||| opt_is_flag_style) :
    parse q = .ok (true, { q with
      priv_tok_begin :=
        if is_delim (deref q q.priv_tok_end) then q.priv_tok_end.plus 1 else q.priv_tok_end
      priv_tok_end := arg_end q
      priv_tok_type := arg_is_option_value
      priv_in_opt_group := false }) := by
  have d1 : done q = false := by
    simp only [done, beq_eq_false_iff_ne]; omega
  have t1 : (arg_is_option ||| opt_is_flag_style) &&& opt_is_flag_style ≠ 0 := by decide
  simp [parse, d1, hmid, hg, ht, t1]

theorem parse_in_group (q : command_parser_t) (hnd : q.priv_arg_iter < q.priv_arg_list.length)
    (hmid : q.priv_tok_end ≠ arg_end q) (hg : q.priv_in_opt_group = true) :
    parse q = .ok (true, { q with
      priv_tok_begin := q.priv_tok_end
      priv_tok_end := q.priv_tok_end.plus 1
      priv_current_opt := (map_subscript char_lt (deref q q.priv_tok_end) q.priv_flag_map).1
      priv_flag_map := (map_subscript char_lt (deref q q.priv_tok_end) q.priv_flag_map).2 }) := by
  have d1 : done q = false := by
    simp only [done, beq_eq_false_iff_ne]; omega
  simp [parse, d1, hmid, hg]

/-- A key without delimiter that is a prefix of `r` is not longer than a key matching `r`. -/
theorem long_match_length_le {k j r : Str} (hk : long_match k r) (hj : j <+: r)
    (hjd : ∀ c ∈ j, is_delim c = false) : j.length ≤ k.length := by
  by_contra hc
  have hlt : k.length < j.length := by omega
  obtain ⟨t, rfl⟩ := hj
  have hg : (j ++ t).get? k.length = some (j.get ⟨k.length, hlt⟩) := by
    rw [List.get?_eq_getElem?, List.getElem?_append_left hlt, List.getElem?_eq_getElem hlt]
    rfl
  have hmem : j.get ⟨k.length, hlt⟩ ∈ j := List.get_mem _ _ _
  have hnd := hjd _ hmem
  rcases hk.2 with e | e | e
  · rw [hg] at e; cases e
  · rw [hg] at e
    simp only [Option.some.injEq] at e
    rw [e] at hnd
    exact absurd hnd (by decide)
  · rw [hg] at e
    simp only [Option.some.injEq] at e
    rw [e] at hnd
    exact absurd hnd (by decide)

/-- Two keys without delimiter that match the same input are equal. -/
theorem long_match_unique {k j r : Str} (hkd : ∀ c ∈ k, is_delim c = false)
    (hjd : ∀ c ∈ j, is_delim c = false) (hk : long_match k r) (hj : long_match j r) :
    k = j := by
  have h1 := long_match_length_le hk hj.1 hjd
  have h2 := long_match_length_le hj hk.1 hkd
  have hp := List.prefix_of_prefix_length_le hk.1 hj.1 h2
  exact List.IsPrefix.eq_of_length hp (by omega)

theorem has_registry_long_key {opts : List option} {p : command_parser_t}
    (h : has_registry opts p) {k : Str} (hk : k ∈ map_keys p.priv_longopt_map) :
    k ≠ [] ∧ k.head? ≠ some '-' := by
  rw [h.2.2.2] at hk
  exact ctor_long_key_head opts k hk

theorem has_registry_flag_key {opts : List option} {p : command_parser_t}
    (h : has_registry opts p) {c : Char} (hc : c ∈ map_keys p.priv_flag_map) : c ≠ '-' := by
  rw [h.2.2.1] at hc
  exact ctor_flag_key_ne_hyphen opts c hc

theorem mem_keys_of_find {κ : Type} {lt : κ → κ → Bool} (ho : strict_order lt) {k : κ}
    {v : opt_iter} {m : List (κ × opt_iter)} (h : map_find lt k m = some v) :
    k ∈ map_keys m :=
  List.mem_map_of_mem Prod.fst (map_find_some_mem ho h)

theorem long_match_self_delim (L v : Str) (d : Char) (hd : d = '=' ∨ d = ',') :
    long_match L (L ++ d :: v) := by
  refine ⟨List.prefix_append _ _, ?_⟩
  have : (L ++ d :: v).get? L.length = some d := by
    rw [List.get?_eq_getElem?, List.getElem?_append_right (Nat.le_refl _)]
    simp
  rw [this]
  rcases hd with e | e
  · right; left; rw [e]
  · right; right; rw [e]

theorem getElem?_after_two (x y : Char) (L t : Str) :
    (x :: y :: (L ++ t))[2 + L.length]? = t[0]? := by
  rw [Nat.add_comm]
  simp [List.getElem?_append_right]

theorem drop_after_two (x y : Char) (L t : Str) (n : Nat) :
    List.drop (2 + L.length + n) (x :: y :: (L ++ t)) = List.drop n t := by
  have e : 2 + L.length + n = (L.length + n) + 1 + 1 := by omega
  rw [e]
  simp [List.drop_append]

theorem take_drop_tail (a t : Str) (n m : Nat) (h : a.drop n = t) (hm : t.length ≤ m) :
    (a.drop n).take m = t := by
  rw [h]; exact List.take_of_length_le hm

/-- The entry found for the input `L ++ d :: v` when `L` is a key and no key holds a
delimiter. -/
theorem find_long_key_delim (opts : List option) (p : command_parser_t) (L v : Str) (d : Char)
    (w : opt_iter) (hreg : has_registry opts p)
    (hkeys : ∀ k ∈ map_keys p.priv_longopt_map, ∀ c ∈ k, is_delim c = false)
    (hL : map_find str_lt L p.priv_longopt_map = some w) (hd : d = '=' ∨ d = ',') :
    find_long (L ++ d :: v) p.priv_longopt_map = some (L, w) := by
  have hs := (has_registry_sorted hreg).2.2
  have hLk := mem_keys_of_find str_lt_order hL
  have hLm := long_match_self_delim L v d hd
  cases hl : find_long (L ++ d :: v) p.priv_longopt_map with
  | none => exact absurd hLm ((find_long_none_iff _ _).1 hl L hLk)
  | some x =>
    obtain ⟨hx, hm, _⟩ := find_long_least _ x _ hs hl
    have hxk : x.1 ∈ map_keys p.priv_longopt_map := List.mem_map_of_mem Prod.fst hx
    have e : x.1 = L := long_match_unique (hkeys _ hxk) (hkeys _ hLk) hm hLm
    have hv := mem_map_find str_lt_order hs hx
    rw [e, hL] at hv
    simp only [Option.some.injEq] at hv
    congr 1
    exact Prod.ext e hv.symm

/-- C5: with a registry none of whose long-style keys holds a delimiter, a long-style key `L`
and a delimiter `d`, moving onto the argument `--` `L` `d` `v` yields an option token of long
style whose text is `L` and whose descriptor is the one the map holds for `L`; the next
step yields an option-value token whose text is `v`, which ends the argument. Keys that are
proper prefixes of `L` do not change this. -/
theorem long_option_then_value (opts : List option) (p : command_parser_t) (L v : Str)
    (d : Char) (w : opt_iter) (hreg : has_registry opts p)
    (hkeys : ∀ k ∈ map_keys p.priv_longopt_map, ∀ c ∈ k, is_delim c = false)
    (hL : map_find str_lt L p.priv_longopt_map = some w) (hd : d = '=' ∨ d = ',')
    (hb : before_arg p ('-' :: '-' :: (L ++ d :: v))) :
    ∃ q r, parse p = .ok (true, q) ∧
      arg_type q = arg_is_option ||| opt_is_long_style ∧ str q = L ∧ q.priv_current_opt = w ∧
      parse q = .ok (true, r) ∧
      arg_type r = arg_is_option_value ∧ str r = v ∧ r.priv_current_opt = w ∧
      r.priv_tok_end = arg_end r := by
  have ha := getElem?_of_before_arg hb
  have hi := lt_length_of_get? hb.2.2
  have hLk := has_registry_long_key hreg (mem_keys_of_find str_lt_order hL)
  have hfl := find_long_key_delim opts p L v d w hreg hkeys hL hd
  have hhead : (L ++ d :: v).head? ≠ some '-' := by
    cases L with
    | nil => exact absurd rfl hLk.1
    | cons c cs => simpa using hLk.2
  have hn : leading_hyphs ('-' :: '-' :: (L ++ d :: v)) = 2 := by
    simp [leading_hyphs, leading_hyphs_eq_zero _ hhead]
  have htake : List.take (L.length + (v.length + 1)) (L ++ d :: (v ++ [NUL])) = L ++ d :: v := by
    have e : L ++ d :: (v ++ [NUL]) = (L ++ d :: v) ++ [NUL] := by simp
    rw [e]
    exact List.take_left' (by simp)
  have hq : classify_arg (skip_hyphs (next_arg p)) = { p with
      priv_in_opt_group := false
      priv_arg_iter := p.priv_arg_iter + 1
      priv_arg_hyphcount := 2
      priv_tok_begin := { arg := p.priv_arg_iter + 1, pos := 2 }
      priv_tok_end := { arg := p.priv_arg_iter + 1, pos := 2 + L.length }
      priv_tok_type := arg_is_option ||| opt_is_long_style
      priv_current_opt := w } := by
    simp [classify_arg, skip_hyphs, next_arg, cur_arg, ha, hn, try_long_option, range_string,
      arg_begin, arg_end, string_iterator.plus, htake, hfl]
  rw [parse_before_arg p _ hb, hq]
  refine ⟨_, _, rfl, rfl, ?_, rfl, parse_long_value _ hi ?_ rfl rfl ?_, ?_⟩
  · simp [str, range_string, ha]
  · simp [arg_end, cur_arg, ha]
    omega
  · have hdd : is_delim d = true := (is_delim_iff d).2 hd
    simp [deref, ha, char_at, List.getD, getElem?_after_two, hdd]
  · refine ⟨rfl, ?_, rfl, rfl⟩
    simp only [str, range_string, arg_end, cur_arg, string_iterator.plus]
    rw [getD_of_get? hb.2.2, take_drop_buffer _ _ _ _ (by simp; omega)]
    apply take_drop_tail _ _ _ _ (drop_after_two '-' '-' L (d :: v) 1)
    simp only [List.drop_one, List.tail_cons, List.length_cons, List.length_append]
    omega

theorem long_option_then_value_witness :
    ∃ q r, parse (sample_session [['-', '-', 'n', 'u', 'm', 'b', 'e', 'r', '=', '5']])
        = .ok (true, q) ∧
      arg_type q = arg_is_option ||| opt_is_long_style ∧
      str q = ['n', 'u', 'm', 'b', 'e', 'r'] ∧ q.priv_current_opt = some 5 ∧
      parse q = .ok (true, r) ∧
      arg_type r = arg_is_option_value ∧ str r = ['5'] ∧ r.priv_current_opt = some 5 ∧
      r.priv_tok_end = arg_end r :=
  long_option_then_value sample_options
    (sample_session [['-', '-', 'n', 'u', 'm', 'b', 'e', 'r', '=', '5']])
    ['n', 'u', 'm', 'b', 'e', 'r'] ['5'] '=' (some 5)
    (by decide) (by decide) (by decide) (by decide) (by decide)

/-- The state after moving onto an argument made of one hyphen and a text `s` that begins
with a registered flag `c` and that no long-style key matches: an option token of flag
style on `c`, in an option group when every character of `s` is a registered flag. -/
theorem classify_first_flag (p : command_parser_t) (s : Str) (c : Char) (w : opt_iter) (g : Bool)
    (hb : before_arg p ('-' :: s)) (hs : s.head? = some c) (hc : c ≠ '-')
    (hfind : map_find char_lt c p.priv_flag_map = some w)
    (hall : s.all (fun x => (map_find char_lt x p.priv_flag_map).isSome) = g)
    (hlong : find_long s p.priv_longopt_map = none) :
    classify_arg (skip_hyphs (next_arg p)) = { p with
      priv_in_opt_group := g
      priv_arg_iter := p.priv_arg_iter + 1
      priv_arg_hyphcount := 1
      priv_tok_begin := { arg := p.priv_arg_iter + 1, pos := 1 }
      priv_tok_end := { arg := p.priv_arg_iter + 1, pos := 2 }
      priv_tok_type := arg_is_option ||| opt_is_flag_style
      priv_current_opt := w } := by
  have ha := getElem?_of_before_arg hb
  cases s with
  | nil => simp at hs
  | cons c' t =>
    have e : c' = c := by simpa using hs
    subst e
    have hn : leading_hyphs ('-' :: c' :: t) = 1 := by simp [leading_hyphs, hc]
    have htake : List.take (t.length + 1) (c' :: t) = c' :: t :=
      List.take_of_length_le (by simp)
    generalize hst : c' :: t = s at *
    have hd : (s[0]?).getD NUL = c' := by rw [← hst]; simp
    cases g with
    | true =>
      simp [classify_arg, skip_hyphs, next_arg, cur_arg, ha, hn, try_long_option, range_string,
        arg_begin, arg_end, string_iterator.plus, htake, hlong, hall, first_char_flag, deref,
        char_at, hd, map_subscript, hfind]
    | false =>
      simp [classify_arg, skip_hyphs, next_arg, cur_arg, ha, hn, try_long_option, range_string,
        arg_begin, arg_end, string_iterator.plus, htake, hlong, hall, first_char_flag, deref,
        char_at, hd, map_subscript, hfind]

theorem all_flags_iff (m : List (Char × opt_iter)) (s : Str) :
    s.all (fun x => (map_find char_lt x m).isSome) = true ↔ ∀ x ∈ s, x ∈ map_keys m := by
  simp only [List.all_eq_true, map_find_isSome_iff char_lt_order]

/-- C3: with a registered flag `c`, moving onto the argument `-` `c` `d` `t`, whose text after
the hyphen is not made of registered flags only and is matched by no long-style key,
yields an option token of flag style whose text is `c` and whose descriptor is the one the
flag-style map holds for `c`; the next step yields an option-value token whose text is the
rest `d` `t` of the argument without `d` when `d` is a delimiter, and the whole rest
otherwise; that token ends the argument. -/
theorem flag_then_inline_value (opts : List option) (p : command_parser_t) (c d : Char)
    (t : Str) (w : opt_iter) (hreg : has_registry opts p)
    (hc : map_find char_lt c p.priv_flag_map = some w)
    (hgrp : ¬ ∀ x ∈ c :: d :: t, x ∈ map_keys p.priv_flag_map)
    (hlong : ∀ k ∈ map_keys p.priv_longopt_map, ¬ long_match k (c :: d :: t))
    (hb : before_arg p ('-' :: c :: d :: t)) :
    ∃ q r, parse p = .ok (true, q) ∧
      arg_type q = arg_is_option ||| opt_is_flag_style ∧ str q = [c] ∧
      q.priv_current_opt = w ∧
      option_id q = w.bind (fun i => (opts.get? i).map option.id) ∧
      parse q = .ok (true, r) ∧ arg_type r = arg_is_option_value ∧
      str r = (if d = '=' ∨ d = ',' then t else d :: t) ∧
      r.priv_tok_end = arg_end r := by
  have ha := getElem?_of_before_arg hb
  have hi := lt_length_of_get? hb.2.2
  have hne := has_registry_flag_key hreg (mem_keys_of_find char_lt_order hc)
  have hl := (find_long_none_iff (c :: d :: t) p.priv_longopt_map).2 hlong
  have hall : (c :: d :: t).all (fun x => (map_find char_lt x p.priv_flag_map).isSome) = false := by
    rw [← Bool.not_eq_true, all_flags_iff]
    exact hgrp
  have hq := classify_first_flag p (c :: d :: t) c w false hb rfl hne hc hall hl
  rw [parse_before_arg p _ hb, hq]
  refine ⟨_, _, rfl, rfl, ?_, rfl, ?_, parse_flag_value _ hi ?_ rfl rfl, ?_⟩
  · simp [str, range_string, ha]
  · simp [option_id, hreg.1]
  · simp [arg_end, cur_arg, ha]
  · refine ⟨rfl, ?_, rfl⟩
    have hdr : deref { p with
        priv_in_opt_group := false
        priv_arg_iter := p.priv_arg_iter + 1
        priv_arg_hyphcount := 1
        priv_tok_begin := { arg := p.priv_arg_iter + 1, pos := 1 }
        priv_tok_end := { arg := p.priv_arg_iter + 1, pos := 2 }
        priv_tok_type := arg_is_option ||| opt_is_flag_style
        priv_current_opt := w } { arg := p.priv_arg_iter + 1, pos := 2 } = d := by
      simp [deref, ha, char_at]
    simp only [str, range_string, arg_end, cur_arg, string_iterator.plus, hdr]
    by_cases hd : d = '=' ∨ d = ','
    · have hdd := (is_delim_iff d).2 hd
      simp [hdd, hd, ha]
    · have hdd : is_delim d = false := by
        rw [← Bool.not_eq_true, is_delim_iff]; exact hd
      simp [hdd, hd, ha]

theorem flag_then_inline_value_witness :
    ∃ q r, parse (sample_session [['-', 'D', '=', 'f', 'o', 'o']]) = .ok (true, q) ∧
      arg_type q = arg_is_option ||| opt_is_flag_style ∧ str q = ['D'] ∧
      q.priv_current_opt = some 1 ∧
      option_id q = (some 1 : opt_iter).bind (fun i => (sample_options.get? i).map option.id) ∧
      parse q = .ok (true, r) ∧ arg_type r = arg_is_option_value ∧
      str r = (if '=' = '=' ∨ '=' = ',' then ['f', 'o', 'o'] else '=' :: ['f', 'o', 'o']) ∧
      r.priv_tok_end = arg_end r :=
  flag_then_inline_value sample_options (sample_session [['-', 'D', '=', 'f', 'o', 'o']])
    'D' '=' ['f', 'o', 'o'] (some 1) (by decide) (by decide) (by decide) (by decide) (by decide)

theorem step_true_of_parse {p q : command_parser_t} (h : parse p = .ok (true, q)) :
    step_true p = some q := by
  simp [step_true, h]

theorem find_of_mem_keys {m : List (Char × opt_iter)} {c : Char} (h : c ∈ map_keys m) :
    ∃ w, map_find char_lt c m = some w := by
  cases hf : map_find char_lt c m with
  | none => exact absurd h ((map_find_eq_none_iff char_lt_order).1 hf)
  | some w => exact ⟨w, rfl⟩

/-- In an option group every step but the first moves one character on. -/
theorem advance_in_group (opts : List option) (p : command_parser_t) (s : Str)
    (hreg : has_registry opts p) (hall : ∀ x ∈ s, x ∈ map_keys p.priv_flag_map)
    (hlong : ∀ k ∈ map_keys p.priv_longopt_map, ¬ long_match k s)
    (hb : before_arg p ('-' :: s)) :
    ∀ i (hi : i < s.length), ∃ w, map_find char_lt (s.get ⟨i, hi⟩) p.priv_flag_map = some w ∧
      advance (i + 1) p = some (group_state p i w) := by
  have ha := getElem?_of_before_arg hb
  have hlen := lt_length_of_get? hb.2.2
  intro i
  induction i with
  | zero =>
    intro hi
    cases s with
    | nil => simp at hi
    | cons c t =>
      have hck : c ∈ map_keys p.priv_flag_map := hall c (by simp)
      obtain ⟨w, hw⟩ := find_of_mem_keys hck
      have hne := has_registry_flag_key hreg hck
      have hl := (find_long_none_iff (c :: t) p.priv_longopt_map).2 hlong
      have hg := (all_flags_iff p.priv_flag_map (c :: t)).2 hall
      have hq := classify_first_flag p (c :: t) c w true hb rfl hne hw hg hl
      refine ⟨w, hw, ?_⟩
      have hp := parse_before_arg p _ hb
      rw [hq] at hp
      simp only [advance, Option.some_bind]
      exact step_true_of_parse hp
  | succ i ih =>
    intro hi
    obtain ⟨w, _, hadv⟩ := ih (by omega)
    have hck : s.get ⟨i + 1, hi⟩ ∈ map_keys p.priv_flag_map := hall _ (List.get_mem _ _ _)
    obtain ⟨w', hw'⟩ := find_of_mem_keys hck
    refine ⟨w', hw', ?_⟩
    have hd : deref (group_state p i w) (group_state p i w).priv_tok_end = s.get ⟨i + 1, hi⟩ := by
      simp [deref, group_state, ha, char_at, List.getD, List.getElem?_eq_getElem hi]
    have hp := parse_in_group (group_state p i w) (by simpa [group_state] using hlen)
      (by simp [group_state, arg_end, cur_arg, ha]; omega) rfl
    rw [hd, map_subscript_found (show map_find char_lt (s.get ⟨i + 1, hi⟩)
      (group_state p i w).priv_flag_map = some w' from hw')] at hp
    rw [advance, hadv, Option.some_bind]
    exact step_true_of_parse hp

theorem parse_leaves_arg (q : command_parser_t) (hnd : q.priv_arg_iter < q.priv_arg_list.length)
    (hend : q.priv_tok_end = arg_end q) :
    ∃ b r, parse q = .ok (b, r) ∧ r.priv_arg_iter = q.priv_arg_iter + 1 := by
  have d1 : done q = false := by
    simp only [done, beq_eq_false_iff_ne]; omega
  by_cases d2 : done (next_arg q) = true
  · exact ⟨false, next_arg q, by simp [parse, d1, hend, d2], rfl⟩
  · refine ⟨true, classify_arg (skip_hyphs (next_arg q)), by simp [parse, d1, hend, d2], ?_⟩
    rw [(classify_arg_frame _).2]
    rfl

/-- C4: for a group of flags, that is a non-empty text `s` made of registered flags only, that
no long-style key matches, the steps over the argument `-` `s` yield `length s` tokens: for every
`i < length s`, the parser after `i + 1` steps is still on that argument and its token is
an option token of flag style whose text is the character `s[i]` and whose descriptor is
the one the flag-style map holds for `s[i]`; that token ends the argument exactly when `i`
is the last offset, and the step after the last token leaves the argument. -/
theorem flag_group_tokens (opts : List option) (p : command_parser_t) (s : Str)
    (hreg : has_registry opts p) (hne : s ≠ [])
    (hall : ∀ x ∈ s, x ∈ map_keys p.priv_flag_map)
    (hlong : ∀ k ∈ map_keys p.priv_longopt_map, ¬ long_match k s)
    (hb : before_arg p ('-' :: s)) :
    (∀ i (hi : i < s.length), ∃ q, advance (i + 1) p = some q ∧
      q.priv_arg_iter = p.priv_arg_iter + 1 ∧ cur_arg q = '-' :: s ∧
      arg_type q = arg_is_option ||| opt_is_flag_style ∧ str q = [s.get ⟨i, hi⟩] ∧
      map_find char_lt (s.get ⟨i, hi⟩) p.priv_flag_map = some q.priv_current_opt ∧
      (q.priv_tok_end = arg_end q ↔ i + 1 = s.length)) ∧
    (∃ q b r, advance s.length p = some q ∧ parse q = .ok (b, r) ∧
      r.priv_arg_iter = p.priv_arg_iter + 2) := by
  have ha := getElem?_of_before_arg hb
  have hlen := lt_length_of_get? hb.2.2
  have hstep := advance_in_group opts p s hreg hall hlong hb
  constructor
  · intro i hi
    obtain ⟨w, hw, hadv⟩ := hstep i hi
    refine ⟨_, hadv, rfl, ?_, rfl, ?_, hw, ?_⟩
    · simp [cur_arg, group_state, ha]
    · simp [str, range_string, group_state, ha, List.take_one, List.getElem?_append_left hi,
        List.getElem?_eq_getElem hi]
    · simp [group_state, arg_end, cur_arg, ha]
  · have hpos : 0 < s.length := List.length_pos.2 hne
    obtain ⟨w, _, hadv⟩ := hstep (s.length - 1) (by omega)
    have e : s.length - 1 + 1 = s.length := by omega
    rw [e] at hadv
    obtain ⟨b, r, hp, hr⟩ := parse_leaves_arg (group_state p (s.length - 1) w)
      (by simpa [group_state] using hlen)
      (by simp [group_state, arg_end, cur_arg, ha]; omega)
    exact ⟨_, b, r, hadv, hp, by rw [hr]; rfl⟩

theorem flag_group_tokens_witness :
    (∀ i (hi : i < ['a', 'b'].length), ∃ q,
      advance (i + 1) (sample_session [['-', 'a', 'b']]) = some q ∧
      q.priv_arg_iter = (sample_session [['-', 'a', 'b']]).priv_arg_iter + 1 ∧
      cur_arg q = '-' :: ['a', 'b'] ∧
      arg_type q = arg_is_option ||| opt_is_flag_style ∧
      str q = [['a', 'b'].get ⟨i, hi⟩] ∧
      map_find char_lt (['a', 'b'].get ⟨i, hi⟩) (sample_session [['-', 'a', 'b']]).priv_flag_map
        = some q.priv_current_opt ∧
      (q.priv_tok_end = arg_end q ↔ i + 1 = ['a', 'b'].length)) ∧
    (∃ q b r, advance ['a', 'b'].length (sample_session [['-', 'a', 'b']]) = some q ∧
      parse q = .ok (b, r) ∧
      r.priv_arg_iter = (sample_session [['-', 'a', 'b']]).priv_arg_iter + 2) :=
  flag_group_tokens sample_options (sample_session [['-', 'a', 'b']]) ['a', 'b']
    (by decide) (by decide) (by decide) (by decide) (by decide)

/-! ## Seeding -/

theorem dropWhile_nil_or_head (f : Char → Bool) :
    ∀ l : Str, l.dropWhile f = [] ∨ ∃ x u, l.dropWhile f = x :: u ∧ f x = false
  | [] => Or.inl rfl
  | c :: cs => by
    cases h : f c with
    | true =>
      rw [List.dropWhile_cons_of_pos h]
      exact dropWhile_nil_or_head f cs
    | false =>
      right
      refine ⟨c, cs, ?_, h⟩
      simp [List.dropWhile_cons, h]

theorem base_name_no_slash (s : Str) : '/' ∉ base_name s := by
  intro h
  have h1 : '/' ∈ s.reverse.takeWhile (fun c => c != '/') := List.mem_reverse.1 h
  have h2 := List.mem_takeWhile_imp h1
  simp at h2

theorem base_name_suffix (s : Str) :
    ('/' ∉ s ∧ base_name s = s) ∨ ∃ dir, s = dir ++ '/' :: base_name s := by
  have hsplit := List.takeWhile_append_dropWhile (fun c => c != '/') s.reverse
  have hs : s = (s.reverse.dropWhile (fun c => c != '/')).reverse ++ base_name s := by
    have := congrArg List.reverse hsplit
    simp only [List.reverse_append, List.reverse_reverse] at this
    exact this.symm
  rcases dropWhile_nil_or_head (fun c => c != '/') s.reverse with h | ⟨x, u, h, hx⟩
  · left
    rw [h] at hs
    simp only [List.reverse_nil, List.nil_append] at hs
    refine ⟨?_, hs.symm⟩
    have := base_name_no_slash s
    rwa [← hs] at this
  · right
    have ex : x = '/' := by simpa using hx
    rw [h, ex] at hs
    refine ⟨u.reverse, ?_⟩
    simpa using hs

/-- C2: seeding with the argument vector `first_arg :: rest` builds the argument list made
of the base name of `first_arg` followed by `rest`, the base name being the suffix of
`first_arg` after its last `/` (all of it when it holds no `/`); after seeding the cursor is
on the first element, the token text is that base name, which holds no `/`, and the token
kind is command. -/
theorem seeding_keeps_base_name (p : command_parser_t) (first_arg : Str) (rest : List Str) :
    (parse_args p first_arg rest).priv_arg_list = base_name first_arg :: rest ∧
    (parse_args p first_arg rest).priv_arg_iter = 0 ∧
    str (parse_args p first_arg rest) = base_name first_arg ∧
    arg_type (parse_args p first_arg rest) = arg_is_command ∧
    '/' ∉ base_name first_arg ∧
    (('/' ∉ first_arg ∧ base_name first_arg = first_arg) ∨
      ∃ dir, first_arg = dir ++ '/' :: base_name first_arg) := by
  refine ⟨rfl, rfl, ?_, rfl, base_name_no_slash first_arg, base_name_suffix first_arg⟩
  simp [str, range_string, parse_args]

/-- C10: the constructor classifies every alias of every descriptor by its number of leading
hyphens and its hyphen-stripped remainder. The keys of the command-style map are the
remainders of the aliases with no hyphen and a remainder longer than one character; the keys
of the flag-style map are the characters that are the whole remainder of an alias with at
most one hyphen; the keys of the long-style map are the non-empty remainders of the aliases
that are neither. An alias with an empty remainder leaves the parser as it is, and every
alias leaves at least two of the three maps as they are. -/
theorem registry_classifies_aliases (opts : List option) :
    (∀ r : Str, r ∈ map_keys (command_parser_new opts).priv_command_map ↔
      ∃ o ∈ opts, ∃ al ∈ o.aliases, is_command_alias al r) ∧
    (∀ c : Char, c ∈ map_keys (command_parser_new opts).priv_flag_map ↔
      ∃ o ∈ opts, ∃ al ∈ o.aliases, is_flag_alias al c) ∧
    (∀ r : Str, r ∈ map_keys (command_parser_new opts).priv_longopt_map ↔
      ∃ o ∈ opts, ∃ al ∈ o.aliases, is_long_alias al r) ∧
    (∀ (opt : Nat) (q : command_parser_t) (al : Str),
      hyphen_stripped al = [] → register_alias opt q al = q) ∧
    (∀ (opt : Nat) (q : command_parser_t) (al : Str),
      ((register_alias opt q al).priv_command_map = q.priv_command_map ∧
        (register_alias opt q al).priv_flag_map = q.priv_flag_map) ∨
      ((register_alias opt q al).priv_command_map = q.priv_command_map ∧
        (register_alias opt q al).priv_longopt_map = q.priv_longopt_map) ∨
      ((register_alias opt q al).priv_flag_map = q.priv_flag_map ∧
        (register_alias opt q al).priv_longopt_map = q.priv_longopt_map)) := by
  refine ⟨ctor_command_keys opts, ctor_flag_keys opts, ctor_long_keys opts, ?_,
    register_alias_one_map⟩
  intro opt q al h
  rw [register_alias_eq, h]
  simp

/-- C1, at the failing input: after seeding with the program name and the argument `-`, one
step puts the token at offsets 1 to 2 of an argument of length 1, so the end of the token is
past the end of the argument; the registry is empty, no option is involved. -/
theorem lone_hyphen_token_past_end :
    ∃ q, parse (parse_args (command_parser_new []) ['p'] [['-']]) = .ok (true, q) ∧
      cur_arg q = ['-'] ∧ q.priv_tok_begin.pos = 1 ∧ q.priv_tok_end.pos = 2 ∧
      ¬ (q.priv_tok_end.pos ≤ (cur_arg q).length) :=
  ⟨_, rfl, by decide, by decide, by decide, by decide⟩

/-! ## Colliding aliases -/

theorem register_alias_command_find (opt : Nat) (p : command_parser_t) (al r : Str) :
    (is_command_alias al r →
      map_find str_lt r (register_alias opt p al).priv_command_map = some (some opt)) ∧
    (¬ is_command_alias al r →
      map_find str_lt r (register_alias opt p al).priv_command_map =
        map_find str_lt r p.priv_command_map) := by
  rw [register_alias_eq]
  unfold is_command_alias
  split_ifs with h1 h2 h3
  · constructor
    · intro h
      rw [← h.1]
      exact map_find_assign_same str_lt_order
    · intro h
      have hne : r ≠ hyphen_stripped al := fun e => h ⟨e.symm, h1.1, e ▸ h1.2⟩
      exact map_find_assign_other str_lt_order hne
  · exact ⟨fun h => absurd ⟨h.2.1, h.1 ▸ h.2.2⟩ h1, fun _ => rfl⟩
  · exact ⟨fun h => absurd ⟨h.2.1, h.1 ▸ h.2.2⟩ h1, fun _ => rfl⟩
  · exact ⟨fun h => absurd ⟨h.2.1, h.1 ▸ h.2.2⟩ h1, fun _ => rfl⟩

theorem register_alias_flag_find (opt : Nat) (p : command_parser_t) (al : Str) (c : Char) :
    (is_flag_alias al c →
      map_find char_lt c (register_alias opt p al).priv_flag_map = some (some opt)) ∧
    (¬ is_flag_alias al c →
      map_find char_lt c (register_alias opt p al).priv_flag_map =
        map_find char_lt c p.priv_flag_map) := by
  rw [register_alias_eq]
  unfold is_flag_alias
  split_ifs with h1 h2 h3
  · refine ⟨fun h => ?_, fun _ => rfl⟩
    have := h1.2
    rw [h.1] at this
    simp at this
  · have hr := length_one_eq _ h2.2
    constructor
    · intro h
      have e : char_at (hyphen_stripped al) 0 = c := by rw [h.1]; simp [char_at]
      rw [e]
      exact map_find_assign_same char_lt_order
    · intro h
      have hne : c ≠ char_at (hyphen_stripped al) 0 := by
        intro e
        apply h
        refine ⟨?_, by omega⟩
        rw [e]; exact hr
      exact map_find_assign_other char_lt_order hne
  · refine ⟨fun h => ?_, fun _ => rfl⟩
    rw [h.1] at h3
    simp at h3
  · refine ⟨fun h => ?_, fun h => ?_⟩
    · exfalso
      apply h2
      refine ⟨by omega, ?_⟩
      rw [h.1]; rfl
    · rfl

theorem register_alias_long_find (opt : Nat) (p : command_parser_t) (al r : Str) :
    (is_long_alias al r →
      map_find str_lt r (register_alias opt p al).priv_longopt_map = some (some opt)) ∧
    (¬ is_long_alias al r →
      map_find str_lt r (register_alias opt p al).priv_longopt_map =
        map_find str_lt r p.priv_longopt_map) := by
  rw [register_alias_eq]
  unfold is_long_alias
  split_ifs with h1 h2 h3
  · exact ⟨fun h => absurd (h.1 ▸ h1) h.2.2.1, fun _ => rfl⟩
  · refine ⟨fun h => ?_, fun _ => rfl⟩
    exfalso
    apply h.2.2.2
    rw [← h.1]
    exact ⟨by omega, h2.2⟩
  · refine ⟨fun h => ?_, fun _ => rfl⟩
    exfalso
    apply h.2.1
    rw [← h.1]
    exact List.length_eq_zero.1 h3
  · constructor
    · intro h
      rw [← h.1]
      exact map_find_assign_same str_lt_order
    · intro h
      have hne : r ≠ hyphen_stripped al := by
        intro e
        apply h
        subst e
        refine ⟨rfl, ?_, h1, ?_⟩
        · intro h'
          apply h3
          rw [h']; rfl
        · intro h'
          exact h2 ⟨by omega, h'.2⟩
      exact map_find_assign_other str_lt_order hne

/-- The value found for a key after the aliases of one descriptor have been registered. -/
theorem foldl_find {κ : Type} (lt : κ → κ → Bool)
    (M : command_parser_t → List (κ × opt_iter)) (P : Str → κ → Prop)
    (h : ∀ opt p al k,
      (P al k → map_find lt k (M (register_alias opt p al)) = some (some opt)) ∧
      (¬ P al k → map_find lt k (M (register_alias opt p al)) = map_find lt k (M p)))
    (opt : Nat) (k : κ) :
    ∀ (als : List Str) (p : command_parser_t),
      ((∃ al ∈ als, P al k) →
        map_find lt k (M (als.foldl (register_alias opt) p)) = some (some opt)) ∧
      ((¬ ∃ al ∈ als, P al k) →
        map_find lt k (M (als.foldl (register_alias opt) p)) = map_find lt k (M p))
  | [], p => by simp
  | a :: l, p => by
    have ih := foldl_find lt M P h opt k l (register_alias opt p a)
    rw [List.foldl_cons]
    by_cases hl : ∃ al ∈ l, P al k
    · refine ⟨fun _ => ih.1 hl, fun hn => ?_⟩
      exfalso
      obtain ⟨al, hal, hp⟩ := hl
      exact hn ⟨al, List.mem_cons_of_mem _ hal, hp⟩
    · rw [ih.2 hl]
      by_cases ha : P a k
      · refine ⟨fun _ => (h opt p a k).1 ha, fun hn => ?_⟩
        exact absurd ⟨a, List.mem_cons_self _ _, ha⟩ hn
      · refine ⟨fun hex => ?_, fun _ => (h opt p a k).2 ha⟩
        obtain ⟨al, hal, hp⟩ := hex
        rcases List.mem_cons.1 hal with e | e
        · exact absurd (e ▸ hp) ha
        · exact absurd ⟨al, e, hp⟩ hl

/-- The value found for a key after a list of descriptors has been registered: the
position of the last descriptor one of whose aliases gives the key. -/
theorem register_options_find {κ : Type} (lt : κ → κ → Bool)
    (M : command_parser_t → List (κ × opt_iter)) (P : Str → κ → Prop)
    (h : ∀ opt p al k,
      (P al k → map_find lt k (M (register_alias opt p al)) = some (some opt)) ∧
      (¬ P al k → map_find lt k (M (register_alias opt p al)) = map_find lt k (M p)))
    (k : κ) :
    ∀ (os : List option) (opt : Nat) (p : command_parser_t),
      (∀ j o, os.get? j = some o → (∃ al ∈ o.aliases, P al k) →
        (∀ j2 o2, j < j2 → os.get? j2 = some o2 → ¬ ∃ al ∈ o2.aliases, P al k) →
        map_find lt k (M (register_options opt os p)) = some (some (opt + j))) ∧
      ((∀ o ∈ os, ¬ ∃ al ∈ o.aliases, P al k) →
        map_find lt k (M (register_options opt os p)) = map_find lt k (M p))
  | [], opt, p => by
    constructor
    · intro j o hj
      simp at hj
    · intro _; rfl
  | o :: os, opt, p => by
    have ih := register_options_find lt M P h k os (opt + 1) (o.aliases.foldl (register_alias opt) p)
    have hf := foldl_find lt M P h opt k o.aliases p
    rw [register_options]
    constructor
    · intro j oj hj hex hlater
      cases j with
      | zero =>
        have e : o = oj := by simpa using hj
        subst e
        have hnone : ∀ o2 ∈ os, ¬ ∃ al ∈ o2.aliases, P al k := by
          intro o2 ho2
          obtain ⟨n, hn⟩ := List.mem_iff_get?.1 ho2
          exact hlater (n + 1) o2 (by omega) (by simpa using hn)
        rw [ih.2 hnone, hf.1 hex]
        rfl
      | succ j =>
        have hj' : os.get? j = some oj := by simpa using hj
        have := ih.1 j oj hj' hex (fun j2 o2 hlt h2 => hlater (j2 + 1) o2 (by omega) (by simpa using h2))
        rw [this]
        congr 2
        omega
    · intro hnone
      rw [ih.2 (fun o2 ho2 => hnone o2 (List.mem_cons_of_mem _ ho2)),
        hf.2 (hnone o (List.mem_cons_self _ _))]

/-- C11: the constructor is total, and when several aliases give the same key of the same
map the key maps to the descriptor registered last: for the descriptor `o` at position `i`
and a key that one of its aliases gives, if no descriptor after `o` has an alias that gives
that key, the map holds the position `i` for the key (whatever the descriptors before `o`
registered, and whatever the order of the aliases inside `o`); this for the command-style,
the flag-style and the long-style map. A token whose recorded descriptor is that value
reports the id of `o`. -/
theorem later_alias_wins (opts : List option) (i : Nat) (o : option)
    (hi : opts.get? i = some o) :
    (∀ r : Str, (∃ al ∈ o.aliases, is_command_alias al r) →
      (∀ j o2, i < j → opts.get? j = some o2 → ¬ ∃ al ∈ o2.aliases, is_command_alias al r) →
      map_find str_lt r (command_parser_new opts).priv_command_map = some (some i)) ∧
    (∀ c : Char, (∃ al ∈ o.aliases, is_flag_alias al c) →
      (∀ j o2, i < j → opts.get? j = some o2 → ¬ ∃ al ∈ o2.aliases, is_flag_alias al c) →
      map_find char_lt c (command_parser_new opts).priv_flag_map = some (some i)) ∧
    (∀ r : Str, (∃ al ∈ o.aliases, is_long_alias al r) →
      (∀ j o2, i < j → opts.get? j = some o2 → ¬ ∃ al ∈ o2.aliases, is_long_alias al r) →
      map_find str_lt r (command_parser_new opts).priv_longopt_map = some (some i)) ∧
    (∀ p : command_parser_t, p.priv_option_list = opts → p.priv_current_opt = some i →
      option_id p = some o.id) := by
  refine ⟨?_, ?_, ?_, ?_⟩
  · intro r hex hlater
    have h := fun p0 => (register_options_find str_lt (fun p => p.priv_command_map) is_command_alias
      register_alias_command_find r opts 0 p0).1 i o hi hex hlater
    simp only [Nat.zero_add] at h
    exact h _
  · intro c hex hlater
    have h := fun p0 => (register_options_find char_lt (fun p => p.priv_flag_map) is_flag_alias
      register_alias_flag_find c opts 0 p0).1 i o hi hex hlater
    simp only [Nat.zero_add] at h
    exact h _
  · intro r hex hlater
    have h := fun p0 => (register_options_find str_lt (fun p => p.priv_longopt_map) is_long_alias
      register_alias_long_find r opts 0 p0).1 i o hi hex hlater
    simp only [Nat.zero_add] at h
    exact h _
  · intro p hl hc
    rw [List.get?_eq_getElem?] at hi
    simp [option_id, hl, hc, hi]

theorem later_alias_wins_witness :
    (∀ r : Str, (∃ al ∈ (clash_options.getD 1 ⟨0, [], []⟩).aliases, is_command_alias al r) →
      (∀ j o2, 1 < j → clash_options.get? j = some o2 →
        ¬ ∃ al ∈ o2.aliases, is_command_alias al r) →
      map_find str_lt r (command_parser_new clash_options).priv_command_map = some (some 1)) ∧
    (∀ c : Char, (∃ al ∈ (clash_options.getD 1 ⟨0, [], []⟩).aliases, is_flag_alias al c) →
      (∀ j o2, 1 < j → clash_options.get? j = some o2 →
        ¬ ∃ al ∈ o2.aliases, is_flag_alias al c) →
      map_find char_lt c (command_parser_new clash_options).priv_flag_map = some (some 1)) ∧
    (∀ r : Str, (∃ al ∈ (clash_options.getD 1 ⟨0, [], []⟩).aliases, is_long_alias al r) →
      (∀ j o2, 1 < j → clash_options.get? j = some o2 →
        ¬ ∃ al ∈ o2.aliases, is_long_alias al r) →
      map_find str_lt r (command_parser_new clash_options).priv_longopt_map = some (some 1)) ∧
    (∀ p : command_parser_t, p.priv_option_list = clash_options →
      p.priv_current_opt = some 1 →
      option_id p = some (clash_options.getD 1 ⟨0, [], []⟩).id) :=
  later_alias_wins clash_options 1 (clash_options.getD 1 ⟨0, [], []⟩) (by decide)

/-! ## States reached from seeding -/

theorem calls_inv (I : command_parser_t → Prop)
    (hstep : ∀ p b q, I p → parse p = .ok (b, q) → I q) :
    ∀ (n : Nat) (p q : command_parser_t), I p → calls n p = some q → I q
  | 0, p, q, hp, h => by
    simp only [calls, Option.some.injEq] at h
    exact h ▸ hp
  | n + 1, p, q, hp, h => by
    simp only [calls] at h
    cases hc : calls n p with
    | none => simp [hc] at h
    | some m =>
      have hm := calls_inv I hstep n p m hp hc
      simp only [hc, Option.some_bind, call] at h
      cases hpm : parse m with
      | error e => simp [hpm] at h
      | ok r =>
        obtain ⟨b, q2⟩ := r
        simp only [hpm, Option.some.injEq] at h
        exact h ▸ hstep m b q2 hm hpm

theorem try_command_option_kind (e : command_parser_t) (h : (try_command_option e).1 = true) :
    (try_command_option e).2.priv_tok_type = arg_is_option ||| opt_is_command_style ∧
    (try_command_option e).2.priv_tok_end = arg_end e := by
  unfold try_command_option at h ⊢
  split at h
  · rename_i x hx
    simp [hx]
  · simp at h

theorem try_long_option_kind (e : command_parser_t) (h : (try_long_option e).1 = true) :
    (try_long_option e).2.priv_tok_type = arg_is_option ||| opt_is_long_style := by
  unfold try_long_option at h ⊢
  dsimp only at h ⊢
  split at h
  · rename_i x hx
    simp [hx]
  · simp at h

theorem classify_arg_kind (e : command_parser_t) : kind_ok (classify_arg e).priv_tok_type := by
  unfold classify_arg
  split <;> (try dsimp only) <;> (try split_ifs) <;>
    simp_all [kind_ok, whole_arg_generic, first_char_flag, try_command_option_kind,
      try_long_option_kind]

theorem parse_kind_ok (p : command_parser_t) (b : Bool) (q : command_parser_t)
    (hk : kind_ok p.priv_tok_type) (h : parse p = .ok (b, q)) : kind_ok q.priv_tok_type := by
  unfold parse at h
  split_ifs at h <;> simp only [Except.ok.injEq, Prod.mk.injEq, reduceCtorEq] at h <;>
    rw [← h.2]
  all_goals first | exact hk | exact classify_arg_kind _ | simp [kind_ok]

theorem seed_kind_ok (p : command_parser_t) (first_arg : Str) (rest : List Str) :
    kind_ok (parse_args p first_arg rest).priv_tok_type :=
  Or.inl rfl

/-- C12, as amended: in every state reached from seeding by calls of `parse()`, a token
whose kind includes option-value has exactly the kind option-value: it carries no style
sub-flag, whether the option before it was of flag style or of long style. -/
theorem option_value_kind_is_plain (opts : List option) (first_arg : Str) (rest : List Str)
    (n : Nat) (q : command_parser_t)
    (h : calls n (parse_args (command_parser_new opts) first_arg rest) = some q)
    (hv : arg_type q &&& arg_is_option_value ≠ 0) :
    arg_type q = arg_is_option_value ∧ arg_type q &&& opt_is_flag_style = 0 ∧
      arg_type q &&& opt_is_long_style = 0 ∧ arg_type q &&& opt_is_command_style = 0 := by
  have hk := calls_inv (fun p => kind_ok p.priv_tok_type) parse_kind_ok n _ q
    (seed_kind_ok _ first_arg rest) h
  simp only [arg_type] at hv ⊢
  rcases hk with e | e | e | e | e | e <;> rw [e] at hv ⊢
  · exact absurd (by decide) hv
  · exact absurd (by decide) hv
  · decide
  · exact absurd (by decide) hv
  · exact absurd (by decide) hv
  · exact absurd (by decide) hv

theorem option_value_kind_is_plain_witness :
    arg_type value_session = arg_is_option_value ∧
      arg_type value_session &&& opt_is_flag_style = 0 ∧
      arg_type value_session &&& opt_is_long_style = 0 ∧
      arg_type value_session &&& opt_is_command_style = 0 :=
  option_value_kind_is_plain sample_options ['p'] [['-', 'D', '=', 'f', 'o', 'o']] 2
    value_session (by decide) (by decide)

/-- C12, counterexample: the value `foo` of `-D=foo` follows an option of flag style and the
value `5` of `--number=5` an option of long style; both have the kind option-value alone,
without the style bit of their option. -/
theorem option_value_without_style :
    (∃ q r, parse (sample_session [['-', 'D', '=', 'f', 'o', 'o']]) = .ok (true, q) ∧
      arg_type q = arg_is_option ||| opt_is_flag_style ∧ parse q = .ok (true, r) ∧
      str r = ['f', 'o', 'o'] ∧ arg_type r = arg_is_option_value ∧
      arg_type r ≠ arg_is_option_value ||| opt_is_flag_style) ∧
    (∃ q r, parse (sample_session [['-', '-', 'n', 'u', 'm', 'b', 'e', 'r', '=', '5']])
        = .ok (true, q) ∧
      arg_type q = arg_is_option ||| opt_is_long_style ∧ parse q = .ok (true, r) ∧
      str r = ['5'] ∧ arg_type r = arg_is_option_value ∧
      arg_type r ≠ arg_is_option_value ||| opt_is_long_style) :=
  ⟨⟨_, _, rfl, by decide, rfl, by decide, by decide, by decide⟩,
   ⟨_, _, rfl, by decide, rfl, by decide, by decide, by decide⟩⟩

theorem leading_hyphs_le : ∀ a : Str, leading_hyphs a ≤ a.length
  | [] => Nat.le_refl 0
  | c :: cs => by
    have := leading_hyphs_le cs
    by_cases h : c = '-' <;> simp [leading_hyphs, h]
    omega

theorem getD_of_getElem? {l : Str} {i : Nat} {d : Char} (h : l[i]? = some d) :
    l.getD i NUL = d := by
  simp [List.getD_eq_getElem?_getD, h]

theorem ready_generic (e : command_parser_t) : step_ready (whole_arg_generic e) :=
  Or.inr (Or.inl rfl)

theorem ready_first_flag (e : command_parser_t) : step_ready (first_char_flag e) :=
  Or.inr (Or.inr (Or.inr (Or.inl rfl)))

theorem ready_command (e : command_parser_t) (h : (try_command_option e).1 = true) :
    step_ready (try_command_option e).2 := by
  right; left
  unfold try_command_option at h ⊢
  split at h
  · rename_i x hx
    simp [hx, arg_end, cur_arg]
  · simp at h

theorem ready_long (e : command_parser_t) (hb : e.priv_tok_begin.arg = e.priv_arg_iter)
    (hpos : e.priv_tok_begin.pos ≤ (cur_arg e).length) (h : (try_long_option e).1 = true) :
    step_ready (try_long_option e).2 := by
  have hraw : range_string e e.priv_tok_begin (arg_end e) =
      (cur_arg e).drop e.priv_tok_begin.pos := by
    simp only [range_string, arg_end, hb]
    exact drop_to_end_buffer _ _ _ hpos
  unfold try_long_option at h ⊢
  dsimp only at h ⊢
  rw [hraw] at h ⊢
  cases hl : find_long ((cur_arg e).drop e.priv_tok_begin.pos) e.priv_longopt_map with
  | none => simp [hl] at h
  | some x =>
    obtain ⟨_, _, _, hm, _⟩ := find_long_some _ x _ hl
    simp only []
    have hlen : x.1.length ≤ (cur_arg e).length - e.priv_tok_begin.pos := by
      have := hm.1.length_le
      simpa using this
    rcases hm.2 with hn | hd | hd
    · right; left
      have h1 := List.get?_eq_none.1 hn
      simp only [List.length_drop] at h1
      simp only [arg_end, cur_arg, string_iterator.plus, hb]
      congr 1
      simp only [cur_arg] at hlen h1 hpos
      omega
    · right; right; right; right
      refine ⟨rfl, ?_⟩
      rw [List.get?_eq_getElem?, List.getElem?_drop] at hd
      simp only [deref, string_iterator.plus, char_at, hb]
      simp only [cur_arg] at hd
      rw [getD_of_getElem? hd]
      decide
    · right; right; right; right
      refine ⟨rfl, ?_⟩
      rw [List.get?_eq_getElem?, List.getElem?_drop] at hd
      simp only [deref, string_iterator.plus, char_at, hb]
      simp only [cur_arg] at hd
      rw [getD_of_getElem? hd]
      decide

theorem classify_ready (p : command_parser_t) :
    step_ready (classify_arg (skip_hyphs (next_arg p))) := by
  have hb : (skip_hyphs (next_arg p)).priv_tok_begin.arg = (skip_hyphs (next_arg p)).priv_arg_iter :=
    rfl
  have hpos : (skip_hyphs (next_arg p)).priv_tok_begin.pos ≤
      (cur_arg (skip_hyphs (next_arg p))).length := by
    have := leading_hyphs_le (cur_arg (next_arg p))
    simpa [skip_hyphs, arg_begin, string_iterator.plus, cur_arg] using this
  generalize skip_hyphs (next_arg p) = e at hb hpos
  unfold classify_arg
  split <;> (try dsimp only) <;> (try split_ifs) <;>
    first
    | exact ready_generic _
    | exact ready_first_flag _
    | exact ready_command e (by assumption)
    | exact ready_long e hb hpos (by assumption)

/-- From a state in which `parse()` has a rule to apply, `parse()` returns and leaves such a
state. -/
theorem parse_ready (p : command_parser_t) (h : step_ready p) :
    ∃ b q, parse p = .ok (b, q) ∧ step_ready q := by
  by_cases d1 : done p = true
  · exact ⟨false, p, by rw [parse, if_pos d1], h⟩
  by_cases hend : p.priv_tok_end = arg_end p
  · by_cases d2 : done (next_arg p) = true
    · exact ⟨false, next_arg p, by rw [parse, if_neg d1, if_pos hend, if_pos d2], Or.inl d2⟩
    · exact ⟨true, _, by rw [parse, if_neg d1, if_pos hend, if_neg d2], classify_ready p⟩
  by_cases hg : p.priv_in_opt_group = true
  · refine ⟨true, { p with
      priv_tok_begin := p.priv_tok_end
      priv_tok_end := p.priv_tok_end.plus 1
      priv_current_opt := (map_subscript char_lt (deref p p.priv_tok_end) p.priv_flag_map).1
      priv_flag_map := (map_subscript char_lt (deref p p.priv_tok_end) p.priv_flag_map).2 },
      ?_, ?_⟩
    · rw [parse, if_neg d1, if_neg hend, if_pos hg]
    · exact Or.inr (Or.inr (Or.inl hg))
  rcases h with h | h | h | h | h
  · exact absurd h d1
  · exact absurd h hend
  · exact absurd h hg
  · have t1 : p.priv_tok_type &&& opt_is_flag_style ≠ 0 := by rw [h]; decide
    exact ⟨true, _, by rw [parse, if_neg d1, if_neg hend, if_neg hg, if_pos t1],
      Or.inr (Or.inl rfl)⟩
  · have t1 : ¬ (p.priv_tok_type &&& opt_is_flag_style ≠ 0) := by rw [h.1]; decide
    have t2 : p.priv_tok_type &&& opt_is_long_style ≠ 0 := by rw [h.1]; decide
    exact ⟨true, _, by rw [parse, if_neg d1, if_neg hend, if_neg hg, if_neg t1, if_pos t2,
      if_pos h.2], Or.inr (Or.inl rfl)⟩

theorem parse_ready_step (p : command_parser_t) (b : Bool) (q : command_parser_t)
    (h : step_ready p) (hp : parse p = .ok (b, q)) : step_ready q := by
  obtain ⟨b2, q2, h2, hr⟩ := parse_ready p h
  rw [hp] at h2
  simp only [Except.ok.injEq, Prod.mk.injEq] at h2
  rw [h2.2]
  exact hr

theorem seed_ready (p : command_parser_t) (first_arg : Str) (rest : List Str) :
    step_ready (parse_args p first_arg rest) :=
  Or.inr (Or.inl rfl)

theorem calls_ready : ∀ (n : Nat) (p : command_parser_t), step_ready p →
    ∃ q, calls n p = some q ∧ step_ready q
  | 0, p, h => ⟨p, rfl, h⟩
  | n + 1, p, h => by
    obtain ⟨m, hm, hr⟩ := calls_ready n p h
    obtain ⟨b, q, hq, hr2⟩ := parse_ready m hr
    refine ⟨q, ?_, hr2⟩
    simp [calls, hm, call, hq]

/-- In the model every call of `parse()` made from a seeded parser returns, and the
assertion of the long-assign branch holds whenever it is reached. This is a statement about
the model only: on the argument made of one hyphen its calls read past the end of the
argument, where the model yields the terminator and the code has no defined behaviour. -/
theorem model_calls_return (opts : List option) (first_arg : Str) (rest : List Str) (n : Nat) :
    ∃ q, calls n (parse_args (command_parser_new opts) first_arg rest) = some q ∧
      (∃ b r, parse q = .ok (b, r)) ∧
      (done q = false → q.priv_tok_end ≠ arg_end q → q.priv_in_opt_group = false →
        q.priv_tok_type &&& opt_is_flag_style = 0 →
        q.priv_tok_type &&& opt_is_long_style ≠ 0 →
        is_delim (deref q q.priv_tok_end) = true) := by
  obtain ⟨q, hq, hr⟩ := calls_ready n _ (seed_ready (command_parser_new opts) first_arg rest)
  obtain ⟨b, r, hp, _⟩ := parse_ready q hr
  refine ⟨q, hq, ⟨b, r, hp⟩, ?_⟩
  intro d1 hend hg t1 _
  rcases hr with h | h | h | h | h
  · rw [d1] at h; cases h
  · exact absurd h hend
  · rw [hg] at h; cases h
  · rw [h] at t1
    exact absurd t1 (by decide)
  · exact h.2

/-- C17, at the failing input: after seeding with the program name and the argument `-`, the
first call of `parse()` leaves a parser that is not done, whose token does not end at the
end of its argument and that is in an option group, so the next call runs the option-group
branch, which reads the character at `priv_tok_end`; that iterator is at offset 2 of an
argument of length 1, past the terminator at offset 1: the read is outside the string. -/
theorem lone_hyphen_next_call_reads_outside :
    ∃ q, parse (sample_session [['-']]) = .ok (true, q) ∧
      done q = false ∧ q.priv_tok_end ≠ arg_end q ∧ q.priv_in_opt_group = true ∧
      q.priv_tok_end.arg = q.priv_arg_iter ∧ (cur_arg q).length < q.priv_tok_end.pos :=
  ⟨_, rfl, by decide, by decide, by decide, by decide, by decide⟩

/-! ## Exhaustion -/

theorem observe_done (q : command_parser_t) (hq : parse q = .ok (false, q)) :
    ∀ n, observe n q = List.replicate n (false, str q, arg_type q)
  | 0 => rfl
  | n + 1 => by
    rw [observe, hq]
    simp only [List.replicate_succ]
    rw [observe_done q hq n]

/-- C13: when the current token ends at the end of the last argument, the next call of
`parse()` returns `false`, and so does every call after it; the parser left by the first of
these calls is left unchanged by the later ones, and the token text and the token kind
after each of these calls are those before the first. -/
theorem exhausted_stays_exhausted (p : command_parser_t)
    (hlast : p.priv_arg_iter + 1 = p.priv_arg_list.length)
    (hend : p.priv_tok_end = arg_end p) :
    ∃ q, parse p = .ok (false, q) ∧ parse q = .ok (false, q) ∧
      str q = str p ∧ arg_type q = arg_type p ∧
      ∀ n, observe (n + 1) p = List.replicate (n + 1) (false, str p, arg_type p) := by
  have d1 : done p = false := by
    simp only [done, beq_eq_false_iff_ne]; omega
  have d2 : done (next_arg p) = true := by
    simp only [done, next_arg, beq_iff_eq]; omega
  have h1 : parse p = .ok (false, next_arg p) := by
    simp [parse, d1, hend, d2]
  have h2 : parse (next_arg p) = .ok (false, next_arg p) := by
    simp [parse, d2]
  have hs : str (next_arg p) = str p := rfl
  have hk : arg_type (next_arg p) = arg_type p := rfl
  refine ⟨next_arg p, h1, h2, hs, hk, ?_⟩
  intro n
  rw [observe, h1]
  simp only [List.replicate_succ, hs, hk]
  rw [observe_done _ h2 n, hs, hk]

theorem exhausted_stays_exhausted_witness :
    ∃ q, parse value_session = .ok (false, q) ∧ parse q = .ok (false, q) ∧
      str q = str value_session ∧ arg_type q = arg_type value_session ∧
      ∀ n, observe (n + 1) value_session =
        List.replicate (n + 1) (false, str value_session, arg_type value_session) :=
  exhausted_stays_exhausted value_session (by decide) (by decide)

/-! ## The ids of the descriptors -/

theorem register_alias_with_options (l : List option) (opt : Nat) (p : command_parser_t)
    (al : Str) :
    register_alias opt (with_options l p) al = with_options l (register_alias opt p al) := by
  unfold register_alias
  dsimp only
  split_ifs <;> rfl

theorem foldl_register_with_options (l : List option) (opt : Nat) :
    ∀ (als : List Str) (p : command_parser_t),
      als.foldl (register_alias opt) (with_options l p) =
        with_options l (als.foldl (register_alias opt) p)
  | [], _ => rfl
  | a :: as, p => by
    rw [List.foldl_cons, List.foldl_cons, register_alias_with_options,
      foldl_register_with_options l opt as]

theorem register_options_with_options (l : List option) :
    ∀ (os1 os2 : List option) (opt : Nat) (p : command_parser_t),
      os1.map option.aliases = os2.map option.aliases →
      register_options opt os2 (with_options l p) = with_options l (register_options opt os1 p)
  | [], [], _, _, _ => rfl
  | [], _ :: _, _, _, h => by simp at h
  | _ :: _, [], _, _, h => by simp at h
  | o1 :: os1, o2 :: os2, opt, p, h => by
    simp only [List.map_cons, List.cons.injEq] at h
    rw [register_options, register_options, ← h.1, foldl_register_with_options,
      register_options_with_options l os1 os2 (opt + 1) _ h.2]

theorem command_parser_new_with_options (opts1 opts2 : List option)
    (h : opts1.map option.aliases = opts2.map option.aliases) :
    command_parser_new opts2 = with_options opts2 (command_parser_new opts1) := by
  unfold command_parser_new
  rw [← register_options_with_options opts2 opts1 opts2 0 _ h]
  rfl

theorem try_command_option_with_options (l : List option) (p : command_parser_t) :
    try_command_option (with_options l p) =
      ((try_command_option p).1, with_options l (try_command_option p).2) := by
  unfold try_command_option
  have e : find_command (cur_arg (with_options l p)) (with_options l p).priv_command_map =
      find_command (cur_arg p) p.priv_command_map := rfl
  rw [e]
  cases find_command (cur_arg p) p.priv_command_map <;> rfl

theorem try_long_option_with_options (l : List option) (p : command_parser_t) :
    try_long_option (with_options l p) =
      ((try_long_option p).1, with_options l (try_long_option p).2) := by
  unfold try_long_option
  dsimp only
  have e : find_long (range_string (with_options l p) (with_options l p).priv_tok_begin
      (arg_end (with_options l p))) (with_options l p).priv_longopt_map =
      find_long (range_string p p.priv_tok_begin (arg_end p)) p.priv_longopt_map := rfl
  rw [e]
  cases find_long (range_string p p.priv_tok_begin (arg_end p)) p.priv_longopt_map <;> rfl

theorem classify_arg_with_options (l : List option) (p : command_parser_t) :
    classify_arg (with_options l p) = with_options l (classify_arg p) := by
  unfold classify_arg
  have hc : (with_options l p).priv_arg_hyphcount = p.priv_arg_hyphcount := rfl
  rw [hc]
  split <;> (try simp only [try_command_option_with_options, try_long_option_with_options]) <;>
    (try simp only [with_options, deref, range_string, arg_end, cur_arg]) <;>
    (try split_ifs) <;> rfl

theorem parse_with_options (l : List option) (p : command_parser_t) :
    parse (with_options l p) =
      match parse p with
      | .ok (b, q) => .ok (b, with_options l q)
      | .error e => .error e := by
  unfold parse
  have h1 : done (with_options l p) = done p := rfl
  have h2 : (with_options l p).priv_tok_end = p.priv_tok_end := rfl
  have h3 : arg_end (with_options l p) = arg_end p := rfl
  have h4 : done (next_arg (with_options l p)) = done (next_arg p) := rfl
  have h5 : classify_arg (skip_hyphs (next_arg (with_options l p))) =
      with_options l (classify_arg (skip_hyphs (next_arg p))) :=
    classify_arg_with_options l (skip_hyphs (next_arg p))
  have h6 : (with_options l p).priv_in_opt_group = p.priv_in_opt_group := rfl
  have h7 : (with_options l p).priv_tok_type = p.priv_tok_type := rfl
  have h8 : deref (with_options l p) p.priv_tok_end = deref p p.priv_tok_end := rfl
  have h9 : cur_arg (with_options l p) = cur_arg p := rfl
  rw [h1, h2, h3, h4, h5, h6, h7, h8, h9]
  split_ifs <;> rfl

theorem observe_with_options (l : List option) :
    ∀ (n : Nat) (p : command_parser_t), observe n (with_options l p) = observe n p
  | 0, _ => rfl
  | n + 1, p => by
    rw [observe, observe, parse_with_options]
    cases parse p with
    | error e => rfl
    | ok r =>
      obtain ⟨b, q⟩ := r
      simp only [observe_with_options l n q]
      rfl

theorem prefix_singleton {k : Str} {c : Char} (h : k <+: [c]) (hne : k ≠ []) : k = [c] := by
  cases k with
  | nil => exact absurd rfl hne
  | cons a t =>
    obtain ⟨u, hu⟩ := h
    simp only [List.cons_append, List.cons.injEq] at hu
    have ht : t = [] := by
      cases t with
      | nil => rfl
      | cons b t2 => simp at hu
    rw [ht, hu.1]

/-- C16: the ids are not used by the parsing. Two descriptor lists with the same aliases in
the same order give, for every argument vector and every number of calls of `parse()`, the
same values returned and the same token texts and kinds. And with a registry none of whose
aliases has the remainder `c` (whatever the ids, that of the character `c` included), the
argument made of a hyphen and `c` is a generic token, not an option. -/
theorem ids_not_used (opts1 opts2 : List option)
    (h : opts1.map option.aliases = opts2.map option.aliases) :
    (∀ (first_arg : Str) (rest : List Str) (n : Nat),
      observe n (parse_args (command_parser_new opts1) first_arg rest) =
        observe n (parse_args (command_parser_new opts2) first_arg rest)) ∧
    (∀ (c : Char) (p : command_parser_t), c ≠ '-' →
      (∀ o ∈ opts1, ∀ al ∈ o.aliases, hyphen_stripped al ≠ [c]) →
      has_registry opts1 p → before_arg p ['-', c] →
      ∃ q, parse p = .ok (true, q) ∧ arg_type q = arg_is_generic ∧ str q = ['-', c]) := by
  constructor
  · intro first_arg rest n
    rw [command_parser_new_with_options opts1 opts2 h]
    exact (observe_with_options opts2 n _).symm
  · intro c p hc hno hreg hb
    have hflag : c ∉ map_keys p.priv_flag_map := by
      rw [hreg.2.2.1, ctor_flag_keys]
      rintro ⟨o, ho, al, hal, hs, _⟩
      exact hno o ho al hal hs
    have hlong : ∀ k ∈ map_keys p.priv_longopt_map, ¬ long_match k [c] := by
      intro k hk hm
      rw [hreg.2.2.2, ctor_long_keys] at hk
      obtain ⟨o, ho, al, hal, hs, hne, _⟩ := hk
      have e := prefix_singleton hm.1 hne
      rw [e] at hs
      exact hno o ho al hal hs
    refine ⟨_, parse_before_arg p _ hb, ?_⟩
    have ha := getElem?_of_before_arg hb
    have hn : leading_hyphs ['-', c] = 1 := by simp [leading_hyphs, hc]
    have hl := (find_long_none_iff [c] p.priv_longopt_map).2 hlong
    have hf := (map_find_eq_none_iff char_lt_order).2 hflag
    simp [classify_arg, skip_hyphs, next_arg, cur_arg, ha, hn, try_long_option, range_string,
      arg_begin, arg_end, string_iterator.plus, hl, deref, char_at, hf, whole_arg_generic,
      arg_type, str]

theorem ids_not_used_witness :
    (∀ (first_arg : Str) (rest : List Str) (n : Nat),
      observe n (parse_args (command_parser_new sample_options) first_arg rest) =
        observe n (parse_args (command_parser_new renumbered_options) first_arg rest)) ∧
    (∀ (c : Char) (p : command_parser_t), c ≠ '-' →
      (∀ o ∈ sample_options, ∀ al ∈ o.aliases, hyphen_stripped al ≠ [c]) →
      has_registry sample_options p → before_arg p ['-', c] →
      ∃ q, parse p = .ok (true, q) ∧ arg_type q = arg_is_generic ∧ str q = ['-', c]) :=
  ids_not_used sample_options renumbered_options (by decide)

/-! ## The order of the scan of the long-style keys -/

/-- When at most one entry of a list has a matching key, `find_long` finds an entry exactly
when it is that entry. -/
theorem find_long_of_unique (r : Str) (l : List (Str × opt_iter))
    (hu : ∀ x ∈ l, ∀ y ∈ l, long_match x.1 r → long_match y.1 r → x = y)
    (x : Str × opt_iter) (hx : x ∈ l) (hm : long_match x.1 r) : find_long r l = some x := by
  cases hf : find_long r l with
  | none =>
    exact absurd hm ((find_long_none_iff r l).1 hf x.1 (List.mem_map_of_mem Prod.fst hx))
  | some y =>
    obtain ⟨pre, post, e, hym, _⟩ := find_long_some r y l hf
    have hy : y ∈ l := by rw [e]; simp
    rw [hu y hy x hx hym hm]

/-- C20: with a registry none of whose long-style keys holds a delimiter, at most one
long-style key matches a remaining input `r`, whatever `r` is; and the scan of
`try_long_option` finds the same entry, or none, over every reordering of the entries of
the long-style map. -/
theorem long_match_order_independent (opts : List option) (p : command_parser_t)
    (hreg : has_registry opts p)
    (hkeys : ∀ k ∈ map_keys p.priv_longopt_map, ∀ c ∈ k, is_delim c = false) (r : Str) :
    (∀ k ∈ map_keys p.priv_longopt_map, ∀ j ∈ map_keys p.priv_longopt_map,
      long_match k r → long_match j r → k = j) ∧
    (∀ m : List (Str × opt_iter), m.Perm p.priv_longopt_map →
      find_long r m = find_long r p.priv_longopt_map) := by
  have hs := (has_registry_sorted hreg).2.2
  have hkey : ∀ k ∈ map_keys p.priv_longopt_map, ∀ j ∈ map_keys p.priv_longopt_map,
      long_match k r → long_match j r → k = j :=
    fun k hk j hj hkm hjm => long_match_unique (hkeys k hk) (hkeys j hj) hkm hjm
  have hu : ∀ x ∈ p.priv_longopt_map, ∀ y ∈ p.priv_longopt_map,
      long_match x.1 r → long_match y.1 r → x = y := by
    intro x hx y hy hxm hym
    have e := hkey x.1 (List.mem_map_of_mem Prod.fst hx) y.1 (List.mem_map_of_mem Prod.fst hy)
      hxm hym
    have h1 := mem_map_find str_lt_order hs hx
    have h2 := mem_map_find str_lt_order hs hy
    rw [e, h2] at h1
    simp only [Option.some.injEq] at h1
    exact Prod.ext e h1.symm
  refine ⟨hkey, ?_⟩
  intro m hperm
  cases hf : find_long r p.priv_longopt_map with
  | none =>
    rw [find_long_none_iff] at hf ⊢
    intro k hk
    obtain ⟨y, hy, e⟩ := List.mem_map.1 hk
    exact hf k (List.mem_map.2 ⟨y, hperm.mem_iff.1 hy, e⟩)
  | some x =>
    obtain ⟨pre, post, e, hxm, _⟩ := find_long_some r x _ hf
    have hx : x ∈ p.priv_longopt_map := by rw [e]; simp
    apply find_long_of_unique r m _ x (hperm.mem_iff.2 hx) hxm
    intro a ha b hb
    exact hu a (hperm.mem_iff.1 ha) b (hperm.mem_iff.1 hb)

theorem long_match_order_independent_witness :
    (∀ k ∈ map_keys (sample_session []).priv_longopt_map,
      ∀ j ∈ map_keys (sample_session []).priv_longopt_map,
      long_match k ['n', 'u', 'm', 'b', 'e', 'r', '=', '5'] →
      long_match j ['n', 'u', 'm', 'b', 'e', 'r', '=', '5'] → k = j) ∧
    (∀ m : List (Str × opt_iter), m.Perm (sample_session []).priv_longopt_map →
      find_long ['n', 'u', 'm', 'b', 'e', 'r', '=', '5'] m =
        find_long ['n', 'u', 'm', 'b', 'e', 'r', '=', '5']
          (sample_session []).priv_longopt_map) :=
  long_match_order_independent sample_options (sample_session []) (by decide) (by decide)
    ['n', 'u', 'm', 'b', 'e', 'r', '=', '5']

/-! ## The argument made of one hyphen -/

theorem map_subscript_again {κ : Type} {lt : κ → κ → Bool} (ho : strict_order lt) (k : κ)
    (m : List (κ × opt_iter)) :
    map_subscript lt k (map_subscript lt k m).2 = map_subscript lt k m := by
  cases hf : map_find lt k m with
  | some v => simp [map_subscript, hf]
  | none => simp [map_subscript, hf, map_find_assign_same ho]

theorem find_long_nil (opts : List option) (p : command_parser_t) (hreg : has_registry opts p) :
    find_long [] p.priv_longopt_map = none := by
  rw [find_long_none_iff]
  intro k hk hm
  have hne := (has_registry_long_key hreg hk).1
  exact hne (List.prefix_nil.1 hm.1)

/-- After the parser has moved onto an argument made of one hyphen, every call of `parse()`
returns `true` and leaves the parser on that argument, one offset further. -/
theorem lone_hyphen_stuck (opts : List option) (p : command_parser_t)
    (hreg : has_registry opts p) (hb : before_arg p ['-']) :
    ∀ n, advance (n + 1) p = some (stuck_state p n) := by
  have ha := getElem?_of_before_arg hb
  have hlen := lt_length_of_get? hb.2.2
  have hl := find_long_nil opts p hreg
  intro n
  induction n with
  | zero =>
    have hp := parse_before_arg p _ hb
    have hq : classify_arg (skip_hyphs (next_arg p)) = stuck_state p 0 := by
      simp [classify_arg, skip_hyphs, next_arg, cur_arg, ha, leading_hyphs, try_long_option,
        range_string, arg_begin, arg_end, string_iterator.plus, hl, first_char_flag, deref,
        char_at, stuck_state, NUL]
    rw [hq] at hp
    simp only [advance, Option.some_bind]
    exact step_true_of_parse hp
  | succ n ih =>
    have hd : deref (stuck_state p n) (stuck_state p n).priv_tok_end = NUL := by
      simp [deref, stuck_state, ha, char_at]
    have hp := parse_in_group (stuck_state p n) (by simpa [stuck_state] using hlen)
      (by simp [stuck_state, arg_end, cur_arg, ha]) rfl
    rw [hd] at hp
    have hm : map_subscript char_lt NUL (stuck_state p n).priv_flag_map =
        map_subscript char_lt NUL p.priv_flag_map :=
      map_subscript_again char_lt_order NUL p.priv_flag_map
    rw [hm] at hp
    rw [advance, ih, Option.some_bind]
    exact step_true_of_parse hp

/-- C14, at the failing input: with the arguments `-` and `x` after the program name, every
call of `parse()` returns `true` with the cursor on the argument `-`: tokens are emitted for
`-` without end and none is ever emitted for `x`. -/
theorem argument_after_lone_hyphen_never_reached :
    ∀ n, ∃ q, advance (n + 1) (sample_session [['-'], ['x']]) = some q ∧
      q.priv_arg_iter = 1 ∧ cur_arg q = ['-'] := by
  intro n
  exact ⟨_, lone_hyphen_stuck sample_options _ (by decide) (by decide) n, rfl, rfl⟩

/-- C15, at the failing input: with the registry built from no descriptor, the argument `-`
gives a token whose kind is option with flag style, not generic. -/
theorem empty_registry_lone_hyphen_is_option :
    ∃ q, parse (parse_args (command_parser_new []) ['p'] [['-']]) = .ok (true, q) ∧
      arg_type q = arg_is_option ||| opt_is_flag_style ∧
      arg_type q &&& arg_is_option ≠ 0 ∧ arg_type q ≠ arg_is_generic :=
  ⟨_, rfl, by decide, by decide, by decide⟩

/-- C18, at the failing input: with the single argument `-` after the program name, the bound
of the claim is 1 and, for every `n`, the first `n` calls of `parse()` all return `true`. -/
theorem lone_hyphen_never_exhausted :
    (([['-']] : List Str).map (fun a => max 1 a.length)).sum = 1 ∧
    ∀ n, ∃ q, advance n (sample_session [['-']]) = some q := by
  refine ⟨by decide, ?_⟩
  intro n
  cases n with
  | zero => exact ⟨_, rfl⟩
  | succ n => exact ⟨_, lone_hyphen_stuck sample_options _ (by decide) (by decide) n⟩

/-- C19, at the failing input: the token that the argument `-` gives has a kind that includes
option, with flag style, but no descriptor is recorded for it (`priv_current_opt` is a
default constructed iterator, so `option_id()` has no descriptor to read); its text is the
terminator read at `end()`, which no alias registered and which is a key of the flag-style
map after the call only because the call has inserted it, with no descriptor. -/
theorem lone_hyphen_option_without_descriptor :
    ∃ q, parse (sample_session [['-']]) = .ok (true, q) ∧
      arg_type q &&& arg_is_option ≠ 0 ∧ arg_type q &&& opt_is_flag_style ≠ 0 ∧
      q.priv_current_opt = none ∧ option_id q = none ∧ str q = [NUL] ∧
      NUL ∉ map_keys (sample_session [['-']]).priv_flag_map ∧
      NUL ∈ map_keys q.priv_flag_map ∧
      map_find char_lt NUL q.priv_flag_map = some none :=
  ⟨_, rfl, by decide, by decide, by decide, by decide, by decide, by decide, by decide,
    by decide⟩

end cli
end ljr
